import Mathlib

/-!
# Gee-nomics: the seed trie and the genome matcher

A shallow embedding of `Trie.h`, `Genome.cpp` and `GenomeMatcher.cpp`.

* `std::string` is a `List Char`.
* A trie node owns its children exclusively, so the heap of nodes is a tree: `Node V`.
  A `Node*` into the trie is the list of child indices leading to it from the root
  (`Cursor`); `deref` reads through a cursor, `update` writes through it.
* A reference parameter that a function writes is an extra argument and an extra result.
* `int` values are `Int` (or `Nat` where the code only ever counts up from zero); the
  conversion of an `int` to `size_t` in a mixed comparison is `toSizeT`. Sums of
  positions and lengths are taken not to overflow an `int`.
-/

namespace GeeNomics

/-! ## Trie.h -/

/-- The `Node` of `Trie.h`: `m_values`, and `m_children` whose entries are the
`Child` pairs `(m_base, m_next)`, the pointee of `m_next` being the owned subtree. -/
inductive Node (V : Type) where
  | mk (m_values : List V) (m_children : List (Char × Node V)) : Node V

/-- Field `m_values` of a node. -/
def Node.m_values {V : Type} : Node V → List V
  | .mk vs _ => vs

/-- Field `m_children` of a node. -/
def Node.m_children {V : Type} : Node V → List (Char × Node V)
  | .mk _ cs => cs

/-- What `new Node` yields: no values, no children. -/
def Node.new {V : Type} : Node V := .mk [] []

/-- A `Node*` that points into a trie: the child indices from the root. -/
abbrev Cursor := List Nat

/-- Read the node a cursor points to. -/
def deref {V : Type} (root : Node V) : Cursor → Option (Node V)
  | [] => some root
  | i :: p =>
    match root.m_children[i]? with
    | none => none
    | some c => deref c.2 p

/-- Write through a cursor: replace the node it points to by `f` of that node. -/
def update {V : Type} (root : Node V) : Cursor → (Node V → Node V) → Node V
  | [], f => f root
  | i :: p, f =>
    match root.m_children[i]? with
    | none => root
    | some c => .mk root.m_values (root.m_children.set i (c.1, update c.2 p f))

/-- The scan `while (i < m_children.size() && m_children[i].m_base != base) i++`:
the index it stops at. -/
def scan {V : Type} (children : List (Char × Node V)) (base : Char) : Nat :=
  children.findIdx (fun c => c.1 == base)

/-- `Trie::findLastMatch(Node*& cur, std::string& sequence)`: the final `cur` and
`sequence`. -/
def findLastMatch {V : Type} (root : Node V) (cur : Cursor) (sequence : List Char) :
    Cursor × List Char :=
  match sequence with
  | [] => (cur, [])
  | base :: rest =>
    match deref root cur with
    | none => (cur, base :: rest)
    | some n =>
      let i := scan n.m_children base
      if i = n.m_children.length then (cur, base :: rest)
      else findLastMatch root (cur ++ [i]) rest

/-- `Trie::addNodes(Node*& cur, const std::string& sequence)`: the trie after the
`push_back`s and the final `cur`. -/
def addNodes {V : Type} (root : Node V) (cur : Cursor) (sequence : List Char) :
    Node V × Cursor :=
  match sequence with
  | [] => (root, cur)
  | base :: rest =>
    match deref root cur with
    | none => (root, cur)
    | some n =>
      let root1 := update root cur
        (fun x => .mk x.m_values (x.m_children ++ [(base, Node.new)]))
      addNodes root1 (cur ++ [n.m_children.length]) rest

/-- The class `Trie<ValueType>`: its only member is `m_root`. -/
structure Trie (V : Type) where
  m_root : Node V

/-- `Trie::Trie()`. -/
def Trie.empty {V : Type} : Trie V := ⟨Node.new⟩

/-- `Trie::reset()`. -/
def Trie.reset {V : Type} (_t : Trie V) : Trie V := ⟨Node.new⟩

/-- `Trie::insert(key, value)`. -/
def Trie.insert {V : Type} (t : Trie V) (key : List Char) (value : V) : Trie V :=
  let (cur, remainingBases) := findLastMatch t.m_root [] key
  let (root1, cur1) := addNodes t.m_root cur remainingBases
  ⟨update root1 cur1 (fun x => .mk (x.m_values ++ [value]) x.m_children)⟩

/-- `Trie::findHelper(cur, sequence, exactMatchOnly, matchValues)`: the final
`matchValues`. -/
def findHelper {V : Type} (cur : Node V) (sequence : List Char) (exactMatchOnly : Bool)
    (matchValues : List V) : List V :=
  match sequence with
  | [] => matchValues ++ cur.m_values
  | base :: remainingBases =>
    cur.m_children.foldl
      (fun acc c =>
        if c.1 = base then findHelper c.2 remainingBases exactMatchOnly acc
        else if !exactMatchOnly then findHelper c.2 remainingBases true acc
        else acc)
      matchValues

/-- `Trie::find(key, exactMatchOnly)`. -/
def Trie.find {V : Type} (t : Trie V) (key : List Char) (exactMatchOnly : Bool) : List V :=
  match key with
  | [] => t.m_root.m_values
  | base :: remainingBases =>
    let i := scan t.m_root.m_children base
    match t.m_root.m_children[i]? with
    | none => []
    | some c => findHelper c.2 remainingBases exactMatchOnly []

/-- The trie after a sequence of `insert` calls on a fresh trie. -/
def Trie.build {V : Type} (ops : List (List Char × V)) : Trie V :=
  ops.foldl (fun t op => t.insert op.1 op.2) Trie.empty

/-! ## Genome.cpp -/

/-- The usual arithmetic conversion of an `int` to the 64-bit `size_t`, as in
`position + length > m_sequence.length()`: a value that is not negative is kept, a
negative one becomes `2^64` plus itself. -/
def toSizeT (x : Int) : Nat :=
  if x < 0 then (x + 18446744073709551616).toNat else x.toNat

/-- `std::string::substr(pos, n)` for `pos <= size()`: the `n` symbols from `pos`, or
as many as there are. (For `pos > size()` the C++ call throws; no call of this
development with a positive seed length gets there.) -/
def substr (s : List Char) (pos n : Nat) : List Char := (s.drop pos).take n

/-- The class `GenomeImpl` (`Genome` only forwards to it): `m_name`, `m_sequence`. -/
structure Genome where
  m_name : List Char
  m_sequence : List Char
deriving DecidableEq

/-- `GenomeImpl::GenomeImpl(nm, sequence)`. -/
def Genome.new (nm sequence : List Char) : Genome := ⟨nm, sequence⟩

/-- `GenomeImpl::length()`. -/
def Genome.length (g : Genome) : Int := (g.m_sequence.length : Int)

/-- `GenomeImpl::name()`. -/
def Genome.name (g : Genome) : List Char := g.m_name

/-- `GenomeImpl::extract(position, length, fragment)`: the returned flag and the
caller's `fragment` afterwards. -/
def Genome.extract (g : Genome) (position length : Int) (fragment : List Char) :
    Bool × List Char :=
  if toSizeT (position + length) > g.m_sequence.length then (false, fragment)
  else (true, substr g.m_sequence (toSizeT position) (toSizeT length))

/-! ## GenomeMatcher.cpp -/

/-- Modelled from the spec: the struct `DNAMatch` of `provided.h`, which is not among
the sources: genome name, matched length, start offset of the match in that genome. -/
structure DNAMatch where
  genomeName : List Char
  length : Nat
  position : Nat
deriving DecidableEq

/-- The class `GenomeMatcherImpl`; a value of the `Trie<pair<int, int>>` is
(index into `m_genomes`, start offset). -/
structure GenomeMatcherImpl where
  m_sequences : Trie (Nat × Nat)
  m_genomes : List Genome
  m_minSearchLength : Int

/-- `GenomeMatcherImpl::GenomeMatcherImpl(minSearchLength)`. -/
def GenomeMatcherImpl.new (minSearchLength : Int) : GenomeMatcherImpl :=
  ⟨Trie.empty, [], minSearchLength⟩

/-- `GenomeMatcherImpl::addGenome(genome)`. The loop
`for (pos = 0; pos <= genome.length() - m_minSearchLength; pos++)` runs over
`pos = 0, ..., genome.length() - m_minSearchLength`, no `pos` at all when that bound is
negative; `subsequence` starts empty in every round and the flag of `extract` is
dropped. -/
def GenomeMatcherImpl.addGenome (m : GenomeMatcherImpl) (genome : Genome) :
    GenomeMatcherImpl :=
  let genomes := m.m_genomes ++ [genome]
  let rounds := (genome.length - m.m_minSearchLength + 1).toNat
  let sequences := (List.range rounds).foldl
    (fun (t : Trie (Nat × Nat)) (pos : Nat) =>
      let subsequence := (genome.extract (pos : Int) m.m_minSearchLength []).2
      t.insert subsequence (genomes.length - 1, pos))
    m.m_sequences
  ⟨sequences, genomes, m.m_minSearchLength⟩

/-- `GenomeMatcherImpl::minimumSearchLength()`. -/
def GenomeMatcherImpl.minimumSearchLength (m : GenomeMatcherImpl) : Int :=
  m.m_minSearchLength

/-- A matcher constructed with `minSearchLength` to which the genomes were added in
list order. -/
def GenomeMatcherImpl.build (minSearchLength : Int) (genomes : List Genome) :
    GenomeMatcherImpl :=
  genomes.foldl GenomeMatcherImpl.addGenome (GenomeMatcherImpl.new minSearchLength)

/-- The `std::unordered_map<string, pair<int, int>>` `matchesMap`, as the list of its
elements; keys are kept unique by the operations below. The order in which C++
iterates over such a map is not specified; here it is the list order. -/
abbrev MatchesMap := List (List Char × (Nat × Nat))

/-- `matchesMap.find(key)`: the element, or `none` for `end()`. -/
def MatchesMap.find (mm : MatchesMap) (key : List Char) : Option (List Char × (Nat × Nat)) :=
  List.find? (fun e => e.1 == key) mm

/-- `matchesMap.erase(it)` for the `it` that `find(key)` returned: the map has one
element per key, so this drops what is stored for `key`. -/
def MatchesMap.erase (mm : MatchesMap) (key : List Char) : MatchesMap :=
  List.filter (fun e => !(e.1 == key)) mm

/-- `matchesMap[key] = value`. -/
def MatchesMap.assign (mm : MatchesMap) (key : List Char) (value : Nat × Nat) : MatchesMap :=
  if (MatchesMap.find mm key).isSome then
    List.map (fun e => if e.1 == key then (key, value) else e) mm
  else mm ++ [(key, value)]

/-- `matchesMap[key]` read: the stored pair (a value-initialised pair if absent). -/
def MatchesMap.at (mm : MatchesMap) (key : List Char) : Nat × Nat :=
  match MatchesMap.find mm key with
  | some e => e.2
  | none => (0, 0)

/-- The extension loop of `findGenomesWithThisDNA`,
`while (fragmentPos < fragment.length()) ...`, as a function of the part of `fragment`
from `fragmentPos` on; the result is the final `lengthOfMatch`. -/
def extensionLoop (g : Genome) (mismatchesLeft : Nat) (curMatchPos : Nat)
    (lengthOfMatch : Nat) (nextBase : List Char) : List Char → Nat
  | [] => lengthOfMatch
  | f :: rest =>
    match g.extract (curMatchPos : Int) 1 nextBase with
    | (false, _) => lengthOfMatch
    | (true, nextBase1) =>
      if nextBase1.headD (Char.ofNat 0) ≠ f then
        if mismatchesLeft = 0 then lengthOfMatch
        else extensionLoop g (mismatchesLeft - 1) (curMatchPos + 1) (lengthOfMatch + 1)
          nextBase1 rest
      else extensionLoop g mismatchesLeft (curMatchPos + 1) (lengthOfMatch + 1)
        nextBase1 rest

/-- The `lengthOfMatch` that `findGenomesWithThisDNA` computes for one potential match
in genome `g` at `origMatchPos`. -/
def lengthOfMatchAt (g : Genome) (fragment : List Char) (exactMatchOnly : Bool)
    (origMatchPos : Nat) : Nat :=
  extensionLoop g (if exactMatchOnly then 0 else 1) origMatchPos 0 [] fragment

/-- One round of the loop over `potentialMatches` in `findGenomesWithThisDNA`: the
`matchesMap` after it. (An index outside `m_genomes` never comes out of the trie; the
round is then skipped.) -/
def matchRound (m : GenomeMatcherImpl) (fragment : List Char) (minimumLength : Int)
    (exactMatchOnly : Bool) (matchesMap : MatchesMap) (potentialMatch : Nat × Nat) :
    MatchesMap :=
  let curGenome := potentialMatch.1
  let origMatchPos := potentialMatch.2
  match m.m_genomes[curGenome]? with
  | none => matchesMap
  | some g =>
    let lengthOfMatch := lengthOfMatchAt g fragment exactMatchOnly origMatchPos
    if (lengthOfMatch : Int) ≥ minimumLength then
      match MatchesMap.find matchesMap g.name with
      | some _ =>
        if lengthOfMatch < (MatchesMap.at matchesMap g.name).1 then matchesMap
        else if lengthOfMatch = (MatchesMap.at matchesMap g.name).1 ∧
            (MatchesMap.at matchesMap g.name).2 < origMatchPos then matchesMap
        else MatchesMap.assign (MatchesMap.erase matchesMap g.name) g.name
          (lengthOfMatch, origMatchPos)
      | none => MatchesMap.assign matchesMap g.name (lengthOfMatch, origMatchPos)
    else matchesMap

/-- The `potentialMatches` of `findGenomesWithThisDNA`: what `Trie::find` returns for
`fragOfFragment = fragment.substr(0, m_minSearchLength)`. -/
def GenomeMatcherImpl.potentialMatches (m : GenomeMatcherImpl) (fragment : List Char)
    (exactMatchOnly : Bool) : List (Nat × Nat) :=
  let fragOfFragment := substr fragment 0 (toSizeT m.m_minSearchLength)
  m.m_sequences.find fragOfFragment exactMatchOnly

/-- The `matchesMap` of `findGenomesWithThisDNA` after the loop over
`potentialMatches`. -/
def GenomeMatcherImpl.matchesMap (m : GenomeMatcherImpl) (fragment : List Char)
    (minimumLength : Int) (exactMatchOnly : Bool) : MatchesMap :=
  (m.potentialMatches fragment exactMatchOnly).foldl
    (matchRound m fragment minimumLength exactMatchOnly) []

/-- `GenomeMatcherImpl::findGenomesWithThisDNA(fragment, minimumLength, exactMatchOnly,
matches)`: the returned flag and the caller's `matches` afterwards, `matches0` being
what that list held before the call. -/
def GenomeMatcherImpl.findGenomesWithThisDNA (m : GenomeMatcherImpl) (fragment : List Char)
    (minimumLength : Int) (exactMatchOnly : Bool) (matches0 : List DNAMatch) :
    Bool × List DNAMatch :=
  if fragment.length < toSizeT minimumLength ∨ minimumLength < m.m_minSearchLength then
    (false, matches0)
  else
    let matchesMap := m.matchesMap fragment minimumLength exactMatchOnly
    if matchesMap.isEmpty then (false, [])
    else
      (true, matchesMap.map (fun e =>
        DNAMatch.mk e.1 (MatchesMap.at matchesMap e.1).1 (MatchesMap.at matchesMap e.1).2))

/-- Modelled from the spec: the struct `GenomeMatch` of `provided.h`, which is not among
the sources: genome name and percentage of the query's fragments matched. The `double`
`percentMatch` is an exact rational here. -/
structure GenomeMatch where
  genomeName : List Char
  percentMatch : ℚ
deriving DecidableEq

/-- The `std::unordered_map<string, double>` `potentialMatchesMap`, as the list of its
elements; its values only ever hold a count. The order in which C++ iterates over such a
map is not specified; here it is the list order. -/
abbrev CountMap := List (List Char × Nat)

/-- `potentialMatchesMap[key]++`: a key not yet there enters with zero and is counted
up. -/
def CountMap.incr (pm : CountMap) (key : List Char) : CountMap :=
  if (List.find? (fun e => e.1 == key) pm).isSome then
    List.map (fun e => if e.1 == key then (e.1, e.2 + 1) else e) pm
  else pm ++ [(key, 1)]

/-- `numSequencesConsidered = query.length() / fragmentMatchLength`, an `int` division
(it rounds towards zero); the divisor is not zero where this is used. -/
def numSequencesConsidered (query : Genome) (fragmentMatchLength : Int) : Int :=
  Int.tdiv query.length fragmentMatchLength

/-- One round of the loop over the windows of `query` in `findRelatedGenomes`: the
`potentialMatchesMap` after round `i`. `curSequence` and `potentialMatches` start empty
in every round and the flag of `extract` is dropped. -/
def windowRound (m : GenomeMatcherImpl) (query : Genome) (fragmentMatchLength : Int)
    (exactMatchOnly : Bool) (potentialMatchesMap : CountMap) (i : Nat) : CountMap :=
  let curSequence :=
    (query.extract ((i : Int) * fragmentMatchLength) fragmentMatchLength []).2
  let found := m.findGenomesWithThisDNA curSequence fragmentMatchLength exactMatchOnly []
  if found.1 = false then potentialMatchesMap
  else found.2.foldl (fun pm d => CountMap.incr pm d.genomeName) potentialMatchesMap

/-- The `potentialMatchesMap` of `findRelatedGenomes` after the loop
`for (i = 0; i < numSequencesConsidered; i++)`. -/
def GenomeMatcherImpl.potentialMatchesMap (m : GenomeMatcherImpl) (query : Genome)
    (fragmentMatchLength : Int) (exactMatchOnly : Bool) : CountMap :=
  (List.range (numSequencesConsidered query fragmentMatchLength).toNat).foldl
    (windowRound m query fragmentMatchLength exactMatchOnly) []

/-- `double p = (it->second / numSequencesConsidered) * 100` in exact arithmetic; `none`
when the division is by zero. -/
def percentOf (count : Nat) (numSequences : Int) : Option ℚ :=
  if numSequences = 0 then none
  else some ((count : ℚ) / (numSequences : ℚ) * 100)

/-- The conversion of a `double` to `int` that happens when the `pair<double, string>`
`pg` is pushed onto the `vector<pair<int, string>>` `matches`: the fraction is dropped. -/
def truncToInt (x : ℚ) : Int := if 0 ≤ x then ⌊x⌋ else -⌊-x⌋

/-- The loop over `potentialMatchesMap` in `findRelatedGenomes` that fills `matches`;
`none` when a round divides by zero. -/
def thresholdLoop (numSequences : Int) (matchPercentThreshold : ℚ) :
    CountMap → Option (List (Int × List Char))
  | [] => some []
  | e :: rest =>
    match percentOf e.2 numSequences with
    | none => none
    | some p =>
      match thresholdLoop numSequences matchPercentThreshold rest with
      | none => none
      | some later =>
        if p > matchPercentThreshold then some ((truncToInt p, e.1) :: later)
        else some later

/-- The order `greater<>()` on `pair<int, string>`: `a > b`, that is `b < a` in the
lexicographic order of pairs. -/
def pairGreater (a b : Int × List Char) : Prop :=
  b.1 < a.1 ∨ (¬ a.1 < b.1 ∧ b.2 < a.2)

instance pairGreaterDecidable : DecidableRel pairGreater :=
  fun a b => by unfold pairGreater; exact inferInstance

/-- `sort(matches.begin(), matches.end(), greater<>())`. The elements of `matches`
carry pairwise different names, so the order `greater<>()` leaves one sorted
arrangement only. -/
def sortMatches (matchesIn : List (Int × List Char)) : List (Int × List Char) :=
  List.insertionSort pairGreater matchesIn

/-- The last loop of `findRelatedGenomes`, as a function of the part of the sorted
`matches` from index `i` on: what it appends to `results`. -/
def tieLoop : List (Int × List Char) → List GenomeMatch
  | [] => []
  | [a] => [⟨a.2, (a.1 : ℚ)⟩]
  | a :: b :: rest =>
    if a.1 = b.1 then
      if a.2 < b.2 then
        (⟨a.2, (a.1 : ℚ)⟩ : GenomeMatch) :: ⟨b.2, (b.1 : ℚ)⟩ :: tieLoop rest
      else (⟨b.2, (b.1 : ℚ)⟩ : GenomeMatch) :: ⟨a.2, (a.1 : ℚ)⟩ :: tieLoop rest
    else (⟨a.2, (a.1 : ℚ)⟩ : GenomeMatch) :: tieLoop (b :: rest)

/-- `GenomeMatcherImpl::findRelatedGenomes(query, fragmentMatchLength, exactMatchOnly,
matchPercentThreshold, results)`: the returned flag and the caller's `results`
afterwards, `results0` being what that list held before the call; `none` when the call
divides by zero. -/
def GenomeMatcherImpl.findRelatedGenomes (m : GenomeMatcherImpl) (query : Genome)
    (fragmentMatchLength : Int) (exactMatchOnly : Bool) (matchPercentThreshold : ℚ)
    (results0 : List GenomeMatch) : Option (Bool × List GenomeMatch) :=
  if fragmentMatchLength < m.m_minSearchLength then some (false, results0)
  else if fragmentMatchLength = 0 then none
  else
    match thresholdLoop (numSequencesConsidered query fragmentMatchLength)
        matchPercentThreshold
        (m.potentialMatchesMap query fragmentMatchLength exactMatchOnly) with
    | none => none
    | some matchesFound =>
      if matchesFound.isEmpty then some (false, results0)
      else some (true, tieLoop (sortMatches matchesFound))

/-! ## Sample inputs -/

/-- The genome of the scenarios of the specification: `"G1" = "ACGTACGT"`. -/
def sampleGenome : Genome := ⟨"G1".toList, "ACGTACGT".toList⟩

/-- A second genome with the name of the first: `"G1" = "TTACGTT"`. -/
def sampleNamesake : Genome := ⟨"G1".toList, "TTACGTT".toList⟩

/-- The matcher of the scenarios: seed length 4, `sampleGenome` indexed. -/
def sampleMatcher : GenomeMatcherImpl := GenomeMatcherImpl.build 4 [sampleGenome]

/-- Seed length 4, two genomes of one name indexed. -/
def sampleMatcher2 : GenomeMatcherImpl :=
  GenomeMatcherImpl.build 4 [sampleGenome, sampleNamesake]

/-- Seed length 2, the one genome `"G1" = "AC"` indexed. -/
def sampleMatcherAC : GenomeMatcherImpl :=
  GenomeMatcherImpl.build 2 [⟨"G1".toList, "AC".toList⟩]

/-- A query of three windows of length 2, the first of them `"AC"`. -/
def sampleQuery3 : Genome := ⟨"Q".toList, "ACGGTT".toList⟩

/-- Seed length 2, three genomes `"A"`, `"B"`, `"C"` indexed, each with sequence
`"AC"`. -/
def sampleMatcherABC : GenomeMatcherImpl :=
  GenomeMatcherImpl.build 2
    [⟨"A".toList, "AC".toList⟩, ⟨"B".toList, "AC".toList⟩, ⟨"C".toList, "AC".toList⟩]

/-- The matcher of the last scenario of the specification: seed length 2, `"G1" =
"AAAA"` and `"G2" = "AAAT"` indexed in that order. -/
def sampleMatcherG1G2 : GenomeMatcherImpl :=
  GenomeMatcherImpl.build 2 [⟨"G1".toList, "AAAA".toList⟩, ⟨"G2".toList, "AAAT".toList⟩]

/-! ## Notions the claims are stated with -/

/-- The number of positions at which two strings carry different symbols, counted over
their common length (the Hamming distance when the lengths agree). -/
def mismatches : List Char → List Char → Nat
  | a :: as, b :: bs => (if a = b then 0 else 1) + mismatches as bs
  | _, _ => 0

/-- The mismatch budget of a lookup: none when `exactMatchOnly`, one otherwise. -/
def budget (exactMatchOnly : Bool) : Nat := if exactMatchOnly then 0 else 1

/-- A string with every symbol converted to upper case, as `toupper` does it for the
letters `a` to `z`. -/
def upperCased (s : List Char) : List Char := s.map Char.toUpper

/-- The window `i` of a query: the symbols at offsets `i * w .. (i + 1) * w - 1`. -/
def window (query : Genome) (w : Int) (i : Nat) : List Char :=
  substr query.m_sequence (i * w.toNat) w.toNat

/-- The number of windows `i` in `[0, numWindows)` for which the fragment search on
window `i`, with `minimumLength = fragmentMatchLength`, succeeds and reports `name`. -/
def hits (m : GenomeMatcherImpl) (query : Genome) (fragmentMatchLength : Int)
    (exactMatchOnly : Bool) (name : List Char) : Nat :=
  ((List.range (numSequencesConsidered query fragmentMatchLength).toNat).filter
    (fun i =>
      (m.findGenomesWithThisDNA (window query fragmentMatchLength i) fragmentMatchLength
          exactMatchOnly []).1
      && (m.findGenomesWithThisDNA (window query fragmentMatchLength i) fragmentMatchLength
          exactMatchOnly []).2.any (fun d => d.genomeName == name))).length

/-! ## Definitions the proofs go through -/

section ProofDefs

variable {V : Type}

/-- What `Trie::insert` does to the subtree it walks into, told as one recursion on the
key. `Trie.insert_eq` proves that `Trie.insert` computes exactly this. -/
def insertRec (n : Node V) : List Char → V → Node V
  | [], v => .mk (n.m_values ++ [v]) n.m_children
  | base :: rest, v =>
    match n.m_children[scan n.m_children base]? with
    | none => .mk n.m_values (n.m_children ++ [(base, insertRec Node.new rest v)])
    | some c =>
      .mk n.m_values (n.m_children.set (scan n.m_children base) (c.1, insertRec c.2 rest v))

/-- The chain `addNodes` hangs below a node, with the value at its end. -/
def addChain (n : Node V) : List Char → V → Node V
  | [], v => .mk (n.m_values ++ [v]) n.m_children
  | base :: rest, v => .mk n.m_values (n.m_children ++ [(base, addChain Node.new rest v)])

/-- The three steps of `Trie::insert`, started with `cur` anywhere in the trie. -/
def insertFrom (root : Node V) (cur : Cursor) (key : List Char) (v : V) : Node V :=
  update (addNodes root (findLastMatch root cur key).1 (findLastMatch root cur key).2).1
    (addNodes root (findLastMatch root cur key).1 (findLastMatch root cur key).2).2
    (fun x => .mk (x.m_values ++ [v]) x.m_children)

/-- What one child adds to `matchValues` in a round of the loop of `findHelper`. -/
def childStep (base : Char) (remainingBases : List Char) (exactMatchOnly : Bool)
    (c : Char × Node V) : List V :=
  if c.1 = base then findHelper c.2 remainingBases exactMatchOnly []
  else if !exactMatchOnly then findHelper c.2 remainingBases true []
  else []

/-- The shape every trie built by `insert` has: the children of a node carry
pairwise different bases, at every node. -/
inductive DistinctBases : Node V → Prop
  | mk (vs : List V) (cs : List (Char × Node V)) :
      (cs.map Prod.fst).Nodup → (∀ c ∈ cs, DistinctBases c.2) → DistinctBases (.mk vs cs)

/-- The number of rounds of the loop of `addGenome` for one genome. -/
def rounds (k : Int) (g : Genome) : Nat := (g.length - k + 1).toNat

/-- The `insert` calls `addGenome` makes for the genome stored at index `i`. -/
def seedOps (k : Int) (i : Nat) (g : Genome) : List (List Char × (Nat × Nat)) :=
  (List.range (rounds k g)).map
    (fun (pos : Nat) => ((g.extract (pos : Int) k []).2, (i, pos)))

/-- The `insert` calls made for a list of genomes stored from index `off` on. -/
def seedOpsFrom (k : Int) : Nat → List Genome → List (List Char × (Nat × Nat))
  | _, [] => []
  | off, g :: gs => seedOps k off g ++ seedOpsFrom k (off + 1) gs

/-- The extension loop on plain lists: `xs` is the genome from the current position
on, the second list the fragment from the current position on, `bud` the mismatches
left; the result is the number of rounds that count a symbol. -/
def ext (bud : Nat) : List Char → List Char → Nat
  | x :: xs, f :: fs =>
    if x ≠ f then (if bud = 0 then 0 else 1 + ext (bud - 1) xs fs)
    else 1 + ext bud xs fs
  | _, _ => 0

/-- The potential match `c` qualifies: its genome is called `name` and its extension
reaches `L`, which is at least `minLen`. -/
def Qualifies (m : GenomeMatcherImpl) (frag : List Char) (minLen : Int) (b : Bool)
    (c : Nat × Nat) (name : List Char) (L : Nat) : Prop :=
  ∃ g, m.m_genomes[c.1]? = some g ∧ g.name = name
    ∧ lengthOfMatchAt g frag b c.2 = L ∧ minLen ≤ (L : Int)

/-- What holds of `matchesMap` once the potential matches `cands` have gone through the
loop: one element per name; each element is a qualifying potential match that no other
of its name beats; the name of every qualifying potential match has an element. -/
structure MapInv (m : GenomeMatcherImpl) (frag : List Char) (minLen : Int) (b : Bool)
    (mm : MatchesMap) (cands : List (Nat × Nat)) : Prop where
  nodup : (mm.map Prod.fst).Nodup
  best : ∀ e ∈ mm,
    (∃ c ∈ cands, c.2 = e.2.2 ∧ Qualifies m frag minLen b c e.1 e.2.1)
    ∧ (∀ c ∈ cands, ∀ L, Qualifies m frag minLen b c e.1 L →
        L ≤ e.2.1 ∧ (L = e.2.1 → e.2.2 ≤ c.2))
  covered : ∀ c ∈ cands, ∀ name L, Qualifies m frag minLen b c name L →
    ∃ e ∈ mm, e.1 = name

end ProofDefs

/-! ## The trie: insertion as a recursion on the key -/

section TrieInsert

variable {V : Type}

@[simp] theorem Node.mk_eta (n : Node V) : Node.mk n.m_values n.m_children = n := by
  cases n; rfl

@[simp] theorem Node.m_values_mk (vs : List V) (cs : List (Char × Node V)) :
    (Node.mk vs cs).m_values = vs := rfl

@[simp] theorem Node.m_children_mk (vs : List V) (cs : List (Char × Node V)) :
    (Node.mk vs cs).m_children = cs := rfl

theorem deref_append (root : Node V) (p q : Cursor) :
    deref root (p ++ q) = (deref root p).bind (fun n => deref n q) := by
  induction p generalizing root with
  | nil => simp [deref]
  | cons i p ih =>
    simp only [List.cons_append, deref]
    cases h : root.m_children[i]? with
    | none => simp
    | some c => simp [ih]

theorem update_append (root : Node V) (p q : Cursor) (f : Node V → Node V) :
    update root (p ++ q) f = update root p (fun n => update n q f) := by
  induction p generalizing root with
  | nil => simp [update]
  | cons i p ih =>
    simp only [List.cons_append, update]
    cases h : root.m_children[i]? with
    | none => simp
    | some c => simp [ih]

theorem update_update (root : Node V) (p : Cursor) (g h : Node V → Node V) :
    update (update root p g) p h = update root p (fun n => h (g n)) := by
  induction p generalizing root with
  | nil => simp [update]
  | cons i p ih =>
    simp only [update]
    cases hc : root.m_children[i]? with
    | none => simp [update, hc]
    | some c =>
      have hi : i < root.m_children.length := by
        rcases List.getElem?_eq_some.1 hc with ⟨hi, _⟩
        exact hi
      simp [update, List.getElem?_set_self, hi, ih]

theorem update_congr (root : Node V) (p : Cursor) (f g : Node V → Node V) (n : Node V)
    (hd : deref root p = some n) (hfg : f n = g n) : update root p f = update root p g := by
  induction p generalizing root with
  | nil =>
    simp only [deref, Option.some.injEq] at hd
    subst hd
    simpa [update] using hfg
  | cons i p ih =>
    simp only [deref] at hd
    simp only [update]
    cases hc : root.m_children[i]? with
    | none => simp
    | some c =>
      rw [hc] at hd
      simp only at hd
      simp [ih c.2 hd]

theorem deref_update (root : Node V) (p : Cursor) (f : Node V → Node V) (n : Node V)
    (hd : deref root p = some n) : deref (update root p f) p = some (f n) := by
  induction p generalizing root with
  | nil =>
    simp only [deref, Option.some.injEq] at hd
    subst hd
    simp [update, deref]
  | cons i p ih =>
    simp only [deref] at hd
    cases hc : root.m_children[i]? with
    | none => rw [hc] at hd; simp at hd
    | some c =>
      rw [hc] at hd
      simp only at hd
      have hi : i < root.m_children.length := by
        rcases List.getElem?_eq_some.1 hc with ⟨hi, _⟩
        exact hi
      simp [update, deref, hc, List.getElem?_set_self, hi, ih c.2 hd]

theorem addChain_new_eq_insertRec (key : List Char) (v : V) :
    addChain (Node.new : Node V) key v = insertRec Node.new key v := by
  induction key with
  | nil => rfl
  | cons base rest ih =>
    have h0 : (Node.new : Node V).m_children = [] := rfl
    simp [addChain, insertRec, h0, scan, ih]

/-- `addNodes` followed by the `push_back` of the value, seen from the node `cur` points
to. -/
theorem addNodes_push (root : Node V) (cur : Cursor) (sequence : List Char) (v : V)
    (n : Node V) (hd : deref root cur = some n) :
    update (addNodes root cur sequence).1 (addNodes root cur sequence).2
        (fun x => .mk (x.m_values ++ [v]) x.m_children)
      = update root cur (fun x => addChain x sequence v) := by
  induction sequence generalizing root cur n with
  | nil => simp [addNodes, addChain]
  | cons base rest ih =>
    simp only [addNodes, hd]
    have hd1 : deref (update root cur
        (fun x => .mk x.m_values (x.m_children ++ [(base, Node.new)])))
        (cur ++ [n.m_children.length]) = some Node.new := by
      rw [deref_append, deref_update root cur _ n hd]
      simp [deref]
    rw [ih _ _ _ hd1, update_append, update_update]
    apply update_congr root cur _ _ n hd
    simp [update, addChain]

theorem insertFrom_eq (root : Node V) (cur : Cursor) (key : List Char) (v : V)
    (n : Node V) (hd : deref root cur = some n) :
    insertFrom root cur key v = update root cur (fun x => insertRec x key v) := by
  induction key generalizing cur n with
  | nil =>
    simp [insertFrom, findLastMatch, addNodes, insertRec]
  | cons base rest ih =>
    by_cases hi : scan n.m_children base = n.m_children.length
    · have hfl : findLastMatch root cur (base :: rest) = (cur, base :: rest) := by
        simp [findLastMatch, hd, hi]
      unfold insertFrom
      rw [hfl]
      simp only
      rw [addNodes_push root cur (base :: rest) v n hd]
      apply update_congr root cur _ _ n hd
      simp [addChain, insertRec, hi, addChain_new_eq_insertRec]
    · have hlt : scan n.m_children base < n.m_children.length := by
        have := @List.findIdx_le_length _ (fun c => c.1 == base) n.m_children
        unfold scan at hi ⊢
        omega
      have hfl : findLastMatch root cur (base :: rest)
          = findLastMatch root (cur ++ [scan n.m_children base]) rest := by
        simp [findLastMatch, hd, hi]
      have hd1 : deref root (cur ++ [scan n.m_children base])
          = some (n.m_children[scan n.m_children base]).2 := by
        rw [deref_append, hd]
        simp [deref, List.getElem?_eq_getElem hlt]
      have h1 : insertFrom root cur (base :: rest) v
          = insertFrom root (cur ++ [scan n.m_children base]) rest v := by
        unfold insertFrom
        rw [hfl]
      rw [h1, ih _ _ hd1, update_append]
      apply update_congr root cur _ _ n hd
      simp [update, insertRec, List.getElem?_eq_getElem hlt]

/-- `Trie::insert` is the recursion `insertRec` on the root. -/
theorem Trie.insert_eq (t : Trie V) (key : List Char) (v : V) :
    t.insert key v = ⟨insertRec t.m_root key v⟩ := by
  have h := insertFrom_eq t.m_root [] key v t.m_root rfl
  simp only [update] at h
  rw [← h]
  rfl

end TrieInsert

/-! ## The trie: what a lookup returns -/

section TrieFind

variable {V : Type}

theorem foldl_acc_flatMap {α β : Type} (f : List β → α → List β) (g : α → List β)
    (h : ∀ acc x, f acc x = acc ++ g x) (acc : List β) (xs : List α) :
    xs.foldl f acc = acc ++ xs.flatMap g := by
  induction xs generalizing acc with
  | nil => simp
  | cons x xs ih => simp [List.foldl_cons, ih, h, List.flatMap_cons]

/-- The lookup only appends to `matchValues`. -/
theorem findHelper_acc (n : Node V) (sequence : List Char) (b : Bool) (acc : List V) :
    findHelper n sequence b acc = acc ++ findHelper n sequence b [] := by
  induction sequence generalizing n b acc with
  | nil => simp [findHelper]
  | cons base rest ih =>
    have hstep : ∀ (a : List V) (c : Char × Node V),
        (if c.1 = base then findHelper c.2 rest b a
          else if (!b) = true then findHelper c.2 rest true a else a)
          = a ++ childStep base rest b c := by
      intro a c
      unfold childStep
      by_cases h1 : c.1 = base
      · simp only [h1, if_true]; exact ih _ _ _
      · by_cases h2 : (!b) = true
        · simp only [h1, h2, if_true, if_false]; exact ih _ _ _
        · simp only [h1, h2, if_false]; simp
    simp only [findHelper]
    rw [foldl_acc_flatMap _ _ hstep, foldl_acc_flatMap _ _ hstep]
    simp

theorem findHelper_nil (n : Node V) (b : Bool) : findHelper n [] b [] = n.m_values := by
  simp [findHelper]

theorem findHelper_cons (n : Node V) (base : Char) (rest : List Char) (b : Bool) :
    findHelper n (base :: rest) b [] = n.m_children.flatMap (childStep base rest b) := by
  have hstep : ∀ (a : List V) (c : Char × Node V),
      (if c.1 = base then findHelper c.2 rest b a
        else if (!b) = true then findHelper c.2 rest true a else a)
        = a ++ childStep base rest b c := by
    intro a c
    unfold childStep
    by_cases h1 : c.1 = base
    · simp only [h1, if_true]; exact findHelper_acc _ _ _ _
    · by_cases h2 : (!b) = true
      · simp only [h1, h2, if_true, if_false]; exact findHelper_acc _ _ _ _
      · simp only [h1, h2, if_false]; simp
  simp only [findHelper]
  rw [foldl_acc_flatMap _ _ hstep]
  simp

theorem findHelper_new (key : List Char) (b : Bool) :
    findHelper (Node.new : Node V) key b [] = [] := by
  cases key with
  | nil => rfl
  | cons base rest => rw [findHelper_cons]; rfl

theorem DistinctBases.nodup {n : Node V} (h : DistinctBases n) :
    (n.m_children.map Prod.fst).Nodup := by
  cases h with
  | mk vs cs h1 h2 => exact h1

theorem DistinctBases.child {n : Node V} (h : DistinctBases n) :
    ∀ c ∈ n.m_children, DistinctBases c.2 := by
  cases h with
  | mk vs cs h1 h2 => exact h2

theorem DistinctBases.new : DistinctBases (Node.new : Node V) :=
  DistinctBases.mk [] [] (by simp) (by simp)

theorem scan_some {cs : List (Char × Node V)} {base : Char} {c : Char × Node V}
    (h : cs[scan cs base]? = some c) : c.1 = base := by
  unfold scan at h
  rcases List.getElem?_eq_some.1 h with ⟨hlt, hc⟩
  have := @List.findIdx_getElem _ (fun c => c.1 == base) cs hlt
  rw [hc] at this
  simpa using this

theorem scan_none {cs : List (Char × Node V)} {base : Char}
    (h : cs[scan cs base]? = none) : ∀ c ∈ cs, c.1 ≠ base := by
  have hle : cs.length ≤ scan cs base := List.getElem?_eq_none_iff.1 h
  have hge := @List.findIdx_le_length _ (fun c => c.1 == base) cs
  have heq : cs.findIdx (fun c => c.1 == base) = cs.length := by
    unfold scan at hle; omega
  intro c hc
  have := List.findIdx_eq_length.1 heq c hc
  simpa using this

theorem flatMap_childStep_none {cs : List (Char × Node V)} {base : Char} (r : List Char)
    (h : ∀ c ∈ cs, c.1 ≠ base) : cs.flatMap (childStep base r true) = [] := by
  induction cs with
  | nil => rfl
  | cons x xs ih =>
    have hx : x.1 ≠ base := h x (List.mem_cons_self _ _)
    rw [List.flatMap_cons, ih (fun c hc => h c (List.mem_cons_of_mem _ hc))]
    simp [childStep, hx]

theorem flatMap_childStep_get {cs : List (Char × Node V)} (hnd : (cs.map Prod.fst).Nodup)
    {i : Nat} {c : Char × Node V} (hc : cs[i]? = some c) (r : List Char) :
    cs.flatMap (childStep c.1 r true) = findHelper c.2 r true [] := by
  induction cs generalizing i with
  | nil => simp at hc
  | cons x xs ih =>
    rw [List.map_cons, List.nodup_cons] at hnd
    cases i with
    | zero =>
      simp only [List.getElem?_cons_zero, Option.some.injEq] at hc
      subst hc
      have hrest : ∀ y ∈ xs, y.1 ≠ x.1 := by
        intro y hy heq
        exact hnd.1 (heq ▸ List.mem_map_of_mem Prod.fst hy)
      rw [List.flatMap_cons, flatMap_childStep_none r hrest]
      simp [childStep]
    | succ j =>
      simp only [List.getElem?_cons_succ] at hc
      have hmem : c ∈ xs := List.getElem?_mem hc
      have hx : x.1 ≠ c.1 := by
        intro heq
        exact hnd.1 (heq ▸ List.mem_map_of_mem Prod.fst hmem)
      rw [List.flatMap_cons, ih hnd.2 hc]
      simp [childStep, hx]

theorem flatMap_childStep_set {cs : List (Char × Node V)} {i : Nat} {c : Char × Node V}
    (hc : cs[i]? = some c) {base : Char} (hne : c.1 ≠ base) (r : List Char) (x : Node V) :
    (cs.set i (c.1, x)).flatMap (childStep base r true)
      = cs.flatMap (childStep base r true) := by
  induction cs generalizing i with
  | nil => simp
  | cons y ys ih =>
    cases i with
    | zero =>
      simp only [List.getElem?_cons_zero, Option.some.injEq] at hc
      subst hc
      simp [List.set, List.flatMap_cons, childStep, hne]
    | succ j =>
      simp only [List.getElem?_cons_succ] at hc
      simp [List.set, List.flatMap_cons, ih hc]

theorem map_fst_set {cs : List (Char × Node V)} {i : Nat} {c : Char × Node V}
    (hc : cs[i]? = some c) (x : Node V) :
    (cs.set i (c.1, x)).map Prod.fst = cs.map Prod.fst := by
  induction cs generalizing i with
  | nil => simp
  | cons y ys ih =>
    cases i with
    | zero =>
      simp only [List.getElem?_cons_zero, Option.some.injEq] at hc
      subst hc
      simp [List.set]
    | succ j =>
      simp only [List.getElem?_cons_succ] at hc
      simp [List.set, ih hc]

/-- `insert` keeps the bases of siblings distinct. -/
theorem DistinctBases.insertRec {n : Node V} (hn : DistinctBases n) (key : List Char)
    (v : V) : DistinctBases (insertRec n key v) := by
  induction key generalizing n with
  | nil =>
    cases hn with
    | mk vs cs h1 h2 => exact DistinctBases.mk _ _ h1 h2
  | cons base rest ih =>
    cases hn with
    | mk vs cs h1 h2 =>
      simp only [GeeNomics.insertRec, Node.m_children_mk, Node.m_values_mk]
      cases hc : cs[scan cs base]? with
      | none =>
        refine DistinctBases.mk _ _ ?_ ?_
        · rw [List.map_append, List.nodup_append]
          refine ⟨h1, by simp, ?_⟩
          intro a ha hb
          simp only [List.map_cons, List.map_nil, List.mem_singleton] at hb
          subst hb
          rcases List.mem_map.1 ha with ⟨c, hcm, hc1⟩
          exact scan_none hc c hcm hc1
        · intro c hcm
          rcases List.mem_append.1 hcm with h | h
          · exact h2 c h
          · simp only [List.mem_singleton] at h
            subst h
            exact ih DistinctBases.new
      | some c =>
        refine DistinctBases.mk _ _ ?_ ?_
        · rw [map_fst_set hc]; exact h1
        · intro d hd
          rcases List.mem_or_eq_of_mem_set hd with h | h
          · exact h2 d h
          · subst h
            exact ih (h2 c (List.getElem?_mem hc))

/-- An exact lookup in the subtree after an `insert` into it: what was there before,
then the new value if the keys agree. -/
theorem findHelper_insertRec {n : Node V} (hn : DistinctBases n) (key : List Char) (v : V)
    (k : List Char) :
    findHelper (insertRec n key v) k true []
      = findHelper n k true [] ++ (if k = key then [v] else []) := by
  induction key generalizing n k with
  | nil =>
    cases k with
    | nil => simp [insertRec, findHelper_nil]
    | cons c r => simp [insertRec, findHelper_cons]
  | cons base rest ih =>
    cases k with
    | nil =>
      cases h : n.m_children[scan n.m_children base]? <;>
        simp [insertRec, findHelper_nil, h]
    | cons c r =>
      rw [findHelper_cons, findHelper_cons]
      simp only [insertRec]
      cases hc : n.m_children[scan n.m_children base]? with
      | none =>
        simp only [Node.m_children_mk, List.flatMap_append, List.flatMap_cons,
          List.flatMap_nil, List.append_nil]
        congr 1
        by_cases hb : base = c
        · subst hb
          simp [childStep, ih DistinctBases.new, findHelper_new]
        · have hb2 : ¬ c = base := fun h => hb h.symm
          simp [childStep, hb, hb2]
      | some d =>
        have hd1 : d.1 = base := scan_some hc
        simp only [Node.m_children_mk]
        by_cases hb : base = c
        · subst hb
          have hnd2 : ((n.m_children.set (scan n.m_children base)
              (d.1, insertRec d.2 rest v)).map Prod.fst).Nodup := by
            rw [map_fst_set hc]; exact hn.nodup
          have hget : (n.m_children.set (scan n.m_children base)
              (d.1, insertRec d.2 rest v))[scan n.m_children base]?
              = some (d.1, insertRec d.2 rest v) := by
            rw [List.getElem?_set_self]
            exact (List.getElem?_eq_some.1 hc).1
          have e1 := flatMap_childStep_get hnd2 hget r
          have e2 := flatMap_childStep_get hn.nodup hc r
          simp only [hd1] at e1 e2 ⊢
          rw [e1, e2, ih (hn.child d (List.getElem?_mem hc))]
          simp
        · have hne : d.1 ≠ c := by rw [hd1]; exact hb
          have hb2 : ¬ c = base := fun h => hb h.symm
          rw [flatMap_childStep_set hc hne]
          simp [hb2]

theorem mismatches_self (k : List Char) : mismatches k k = 0 := by
  induction k with
  | nil => rfl
  | cons a as ih => simp [mismatches, ih]

theorem eq_of_mismatches_eq_zero {k k' : List Char} (hl : k'.length = k.length)
    (h : mismatches k k' = 0) : k' = k := by
  induction k generalizing k' with
  | nil => simpa using hl
  | cons a as ih =>
    cases k' with
    | nil => simp at hl
    | cons b bs =>
      simp only [mismatches] at h
      simp only [List.length_cons, Nat.add_right_cancel_iff] at hl
      by_cases hab : a = b
      · subst hab
        simp only [if_true, Nat.zero_add] at h
        rw [ih hl h]
      · simp [hab] at h

theorem mem_findHelper_exact_cons {n : Node V} {base : Char} {r : List Char} {v : V} :
    v ∈ findHelper n (base :: r) true []
      ↔ ∃ c ∈ n.m_children, c.1 = base ∧ v ∈ findHelper c.2 r true [] := by
  rw [findHelper_cons, List.mem_flatMap]
  constructor
  · rintro ⟨c, hc, hv⟩
    by_cases h : c.1 = base
    · exact ⟨c, hc, h, by simpa [childStep, h] using hv⟩
    · simp [childStep, h] at hv
  · rintro ⟨c, hc, h, hv⟩
    exact ⟨c, hc, by simpa [childStep, h] using hv⟩

/-- A lookup below any node returns what exact lookups of the keys within the mismatch
budget return there. -/
theorem mem_findHelper_iff (n : Node V) (k : List Char) (b : Bool) (v : V) :
    v ∈ findHelper n k b []
      ↔ ∃ k', k'.length = k.length ∧ mismatches k k' ≤ budget b
          ∧ v ∈ findHelper n k' true [] := by
  cases b with
  | true =>
    constructor
    · intro h
      exact ⟨k, rfl, by simp [mismatches_self], h⟩
    · rintro ⟨k', hl, hm, hv⟩
      have : k' = k := eq_of_mismatches_eq_zero hl (by simpa [budget] using hm)
      rw [← this]; exact hv
  | false =>
    induction k generalizing n with
    | nil =>
      constructor
      · intro h
        exact ⟨[], rfl, by simp [mismatches], by simpa [findHelper_nil] using h⟩
      · rintro ⟨k', hl, _, hv⟩
        have : k' = [] := by simpa using hl
        subst this
        simpa [findHelper_nil] using hv
    | cons base r ih =>
      rw [findHelper_cons, List.mem_flatMap]
      constructor
      · rintro ⟨c, hc, hv⟩
        by_cases h : c.1 = base
        · have hv2 : v ∈ findHelper c.2 r false [] := by simpa [childStep, h] using hv
          rcases (ih c.2).1 hv2 with ⟨r', hl, hm, hv3⟩
          refine ⟨base :: r', by simp [hl], by simpa [mismatches] using hm, ?_⟩
          exact mem_findHelper_exact_cons.2 ⟨c, hc, h, hv3⟩
        · have hv2 : v ∈ findHelper c.2 r true [] := by simpa [childStep, h] using hv
          have hne : ¬ base = c.1 := fun e => h e.symm
          refine ⟨c.1 :: r, by simp, by simp [mismatches, hne, mismatches_self, budget], ?_⟩
          exact mem_findHelper_exact_cons.2 ⟨c, hc, rfl, hv2⟩
      · rintro ⟨k', hl, hm, hv⟩
        cases k' with
        | nil => simp at hl
        | cons b' r' =>
          simp only [List.length_cons, Nat.add_right_cancel_iff] at hl
          rcases mem_findHelper_exact_cons.1 hv with ⟨c, hc, hc1, hv2⟩
          refine ⟨c, hc, ?_⟩
          by_cases h : c.1 = base
          · have hbb : base = b' := by rw [← h, hc1]
            have hm2 : mismatches r r' ≤ budget false := by
              simpa [mismatches, hbb] using hm
            have := (ih c.2).2 ⟨r', hl, hm2, hv2⟩
            simpa [childStep, h] using this
          · have hbb : ¬ base = b' := by
              intro e; exact h (by rw [hc1, e])
            have hm2 : mismatches r r' = 0 := by
              simp only [mismatches, hbb, if_false, budget] at hm
              simp at hm
              omega
            have : r' = r := eq_of_mismatches_eq_zero hl hm2
            subst this
            simpa [childStep, h] using hv2

/-- `Trie::find` on a non-empty key: the first symbol is matched exactly at the root,
the rest of the key is looked up within the mismatch budget. -/
theorem Trie.mem_find_cons (t : Trie V) (ht : DistinctBases t.m_root) (base : Char)
    (r : List Char) (b : Bool) (v : V) :
    v ∈ t.find (base :: r) b
      ↔ ∃ r', r'.length = r.length ∧ mismatches r r' ≤ budget b
          ∧ v ∈ findHelper t.m_root (base :: r') true [] := by
  simp only [Trie.find]
  cases hc : t.m_root.m_children[scan t.m_root.m_children base]? with
  | none =>
    simp only [List.not_mem_nil, false_iff]
    rintro ⟨r', _, _, hv⟩
    rw [findHelper_cons, flatMap_childStep_none r' (scan_none hc)] at hv
    simp at hv
  | some c =>
    have hc1 : c.1 = base := scan_some hc
    have hget : ∀ r', findHelper t.m_root (base :: r') true []
        = findHelper c.2 r' true [] := by
      intro r'
      rw [findHelper_cons, ← hc1]
      exact flatMap_childStep_get ht.nodup hc r'
    simp only [hget]
    exact mem_findHelper_iff c.2 r b v

/-- On a trie with distinct sibling bases, `Trie::find` in exact mode is the exact
lookup from the root. -/
theorem Trie.find_exact (t : Trie V) (ht : DistinctBases t.m_root) (k : List Char) :
    t.find k true = findHelper t.m_root k true [] := by
  cases k with
  | nil => simp [Trie.find, findHelper_nil]
  | cons base r =>
    simp only [Trie.find]
    cases hc : t.m_root.m_children[scan t.m_root.m_children base]? with
    | none =>
      rw [findHelper_cons, flatMap_childStep_none r (scan_none hc)]
    | some c =>
      have hc1 : c.1 = base := scan_some hc
      rw [findHelper_cons, ← hc1]
      exact (flatMap_childStep_get ht.nodup hc r).symm

theorem Trie.foldl_insert_distinct (ops : List (List Char × V)) (t : Trie V)
    (ht : DistinctBases t.m_root) :
    DistinctBases (ops.foldl (fun t op => t.insert op.1 op.2) t).m_root := by
  induction ops generalizing t with
  | nil => exact ht
  | cons op ops ih =>
    rw [List.foldl_cons]
    apply ih
    rw [Trie.insert_eq]
    exact ht.insertRec _ _

theorem Trie.foldl_insert_content (ops : List (List Char × V)) (t : Trie V)
    (ht : DistinctBases t.m_root) (k : List Char) :
    findHelper (ops.foldl (fun t op => t.insert op.1 op.2) t).m_root k true []
      = findHelper t.m_root k true []
        ++ (ops.filter (fun op => decide (op.1 = k))).map Prod.snd := by
  induction ops generalizing t with
  | nil => simp
  | cons op ops ih =>
    rw [List.foldl_cons, ih]
    · rw [Trie.insert_eq]
      simp only
      rw [findHelper_insertRec ht]
      by_cases h : op.1 = k
      · simp [h, List.filter_cons]
      · have h2 : ¬ k = op.1 := fun e => h e.symm
        simp [h, h2, List.filter_cons]
    · rw [Trie.insert_eq]
      exact ht.insertRec _ _

theorem Trie.build_distinct (ops : List (List Char × V)) :
    DistinctBases (Trie.build ops).m_root :=
  Trie.foldl_insert_distinct ops Trie.empty DistinctBases.new

theorem Trie.build_content (ops : List (List Char × V)) (k : List Char) :
    findHelper (Trie.build ops).m_root k true []
      = (ops.filter (fun op => decide (op.1 = k))).map Prod.snd := by
  unfold Trie.build
  rw [Trie.foldl_insert_content ops Trie.empty DistinctBases.new k]
  simp [Trie.empty, findHelper_new]

end TrieFind

/-! ## The matcher: what the seed trie holds -/

section MatcherIndex

theorem GenomeMatcherImpl.addGenome_eq (m : GenomeMatcherImpl) (g : Genome) :
    m.addGenome g
      = ⟨(seedOps m.m_minSearchLength m.m_genomes.length g).foldl
            (fun t op => t.insert op.1 op.2) m.m_sequences,
          m.m_genomes ++ [g], m.m_minSearchLength⟩ := by
  simp [GenomeMatcherImpl.addGenome, seedOps, rounds, List.foldl_map]

theorem GenomeMatcherImpl.foldl_addGenome (gs : List Genome) (m : GenomeMatcherImpl) :
    gs.foldl GenomeMatcherImpl.addGenome m
      = ⟨(seedOpsFrom m.m_minSearchLength m.m_genomes.length gs).foldl
            (fun t op => t.insert op.1 op.2) m.m_sequences,
          m.m_genomes ++ gs, m.m_minSearchLength⟩ := by
  induction gs generalizing m with
  | nil => simp [seedOpsFrom]
  | cons g gs ih =>
    rw [List.foldl_cons, ih, GenomeMatcherImpl.addGenome_eq]
    simp [seedOpsFrom, List.foldl_append]

theorem GenomeMatcherImpl.build_eq (k : Int) (gs : List Genome) :
    GenomeMatcherImpl.build k gs = ⟨Trie.build (seedOpsFrom k 0 gs), gs, k⟩ := by
  unfold GenomeMatcherImpl.build
  rw [GenomeMatcherImpl.foldl_addGenome]
  simp [GenomeMatcherImpl.new, Trie.build]

theorem toSizeT_of_nonneg {x : Int} (h : 0 ≤ x) : toSizeT x = x.toNat := by
  unfold toSizeT
  rw [if_neg (by omega)]

theorem Genome.extract_ok (g : Genome) (p : Nat) (k : Int) (fr : List Char) (hk : 0 ≤ k)
    (h : (p : Int) + k ≤ g.length) :
    g.extract (p : Int) k fr = (true, substr g.m_sequence p k.toNat) := by
  unfold Genome.extract
  unfold Genome.length at h
  have h1 : toSizeT ((p : Int) + k) = p + k.toNat := by
    rw [toSizeT_of_nonneg (by omega)]; omega
  have h2 : toSizeT (p : Int) = p := by
    rw [toSizeT_of_nonneg (by omega)]; omega
  rw [h1, h2, toSizeT_of_nonneg hk, if_neg (by omega)]

theorem Genome.extract_fail (g : Genome) (p : Nat) (k : Int) (fr : List Char) (hk : 0 ≤ k)
    (h : g.length < (p : Int) + k) : g.extract (p : Int) k fr = (false, fr) := by
  unfold Genome.extract
  unfold Genome.length at h
  have h1 : toSizeT ((p : Int) + k) = p + k.toNat := by
    rw [toSizeT_of_nonneg (by omega)]; omega
  rw [h1, if_pos (by omega)]

theorem lt_rounds_iff (k : Int) (g : Genome) (p : Nat) :
    p < rounds k g ↔ (p : Int) ≤ g.length - k := by
  unfold rounds
  omega

theorem mem_seedOps {k : Int} {j : Nat} {g : Genome} {key : List Char} {i p : Nat} :
    (key, (i, p)) ∈ seedOps k j g
      ↔ i = j ∧ p < rounds k g ∧ key = (g.extract (p : Int) k []).2 := by
  unfold seedOps
  simp only [List.mem_map, List.mem_range, Prod.mk.injEq]
  constructor
  · rintro ⟨q, hq, h1, h2, h3⟩
    subst h3
    exact ⟨h2.symm, hq, h1.symm⟩
  · rintro ⟨h1, h2, h3⟩
    exact ⟨p, h2, h3.symm, h1.symm, rfl⟩

theorem mem_seedOpsFrom {k : Int} {gs : List Genome} {off : Nat} {key : List Char}
    {i p : Nat} :
    (key, (i, p)) ∈ seedOpsFrom k off gs
      ↔ ∃ g, off ≤ i ∧ gs[i - off]? = some g ∧ p < rounds k g
          ∧ key = (g.extract (p : Int) k []).2 := by
  induction gs generalizing off with
  | nil => simp [seedOpsFrom]
  | cons g gs ih =>
    simp only [seedOpsFrom, List.mem_append, mem_seedOps, ih]
    constructor
    · rintro (⟨h1, h2, h3⟩ | ⟨g', h1, h2, h3⟩)
      · subst h1
        exact ⟨g, Nat.le_refl _, by simp, h2, h3⟩
      · refine ⟨g', by omega, ?_, h3⟩
        have : i - off = (i - (off + 1)) + 1 := by omega
        rw [this, List.getElem?_cons_succ]
        exact h2
    · rintro ⟨g', h1, h2, h3⟩
      by_cases hio : i = off
      · left
        subst hio
        simp only [Nat.sub_self, List.getElem?_cons_zero, Option.some.injEq] at h2
        subst h2
        exact ⟨rfl, h3⟩
      · right
        refine ⟨g', by omega, ?_, h3⟩
        have : i - off = (i - (off + 1)) + 1 := by omega
        rw [this, List.getElem?_cons_succ] at h2
        exact h2

theorem seedOps_values_nodup (k : Int) (j : Nat) (g : Genome) :
    ((seedOps k j g).map Prod.snd).Nodup := by
  unfold seedOps
  rw [List.map_map]
  apply List.Nodup.map _ (List.nodup_range _)
  intro a b h
  simpa using h

theorem seedOpsFrom_values_nodup (k : Int) (off : Nat) (gs : List Genome) :
    ((seedOpsFrom k off gs).map Prod.snd).Nodup := by
  induction gs generalizing off with
  | nil => simp [seedOpsFrom]
  | cons g gs ih =>
    simp only [seedOpsFrom, List.map_append]
    rw [List.nodup_append]
    refine ⟨seedOps_values_nodup k off g, ih (off + 1), ?_⟩
    intro v hv1 hv2
    rcases List.mem_map.1 hv1 with ⟨⟨key1, i1, p1⟩, hm1, e1⟩
    rcases List.mem_map.1 hv2 with ⟨⟨key2, i2, p2⟩, hm2, e2⟩
    simp only at e1 e2
    have h1 := (mem_seedOps.1 hm1).1
    rcases mem_seedOpsFrom.1 hm2 with ⟨_, h2, _⟩
    rw [← e2] at e1
    simp only [Prod.mk.injEq] at e1
    omega

/-- The seed trie of a matcher built from `gs`: an exact lookup lists the occurrences of
the key among the seeds. -/
theorem GenomeMatcherImpl.mem_find_exact (k : Int) (gs : List Genome) (s : List Char)
    (i p : Nat) :
    (i, p) ∈ (GenomeMatcherImpl.build k gs).m_sequences.find s true
      ↔ ∃ g, gs[i]? = some g ∧ p < rounds k g ∧ s = (g.extract (p : Int) k []).2 := by
  rw [GenomeMatcherImpl.build_eq]
  simp only
  rw [Trie.find_exact _ (Trie.build_distinct _), Trie.build_content]
  simp only [List.mem_map, List.mem_filter, decide_eq_true_eq]
  constructor
  · rintro ⟨⟨key, i', p'⟩, ⟨hm, hk⟩, hv⟩
    simp only [Prod.mk.injEq] at hv
    simp only at hk
    rcases hv with ⟨rfl, rfl⟩
    subst hk
    rcases mem_seedOpsFrom.1 hm with ⟨g, _, h2, h3, h4⟩
    exact ⟨g, by simpa using h2, h3, h4⟩
  · rintro ⟨g, h1, h2, h3⟩
    exact ⟨(s, (i, p)), ⟨mem_seedOpsFrom.2 ⟨g, Nat.zero_le _, by simpa using h1, h2, h3⟩, rfl⟩,
      rfl⟩

theorem GenomeMatcherImpl.find_exact_nodup (k : Int) (gs : List Genome) (s : List Char) :
    ((GenomeMatcherImpl.build k gs).m_sequences.find s true).Nodup := by
  rw [GenomeMatcherImpl.build_eq]
  simp only
  rw [Trie.find_exact _ (Trie.build_distinct _), Trie.build_content]
  exact List.Nodup.sublist (List.Sublist.map _ (List.filter_sublist _))
    (seedOpsFrom_values_nodup k 0 gs)

end MatcherIndex

/-! ## The matcher: the extension loop -/

section Extension

theorem ext_nil_left (bud : Nat) (fs : List Char) : ext bud [] fs = 0 := by
  simp [ext]

theorem ext_nil_right (bud : Nat) (xs : List Char) : ext bud xs [] = 0 := by
  cases xs <;> simp [ext]

theorem extensionLoop_eq (g : Genome) (bud p acc : Nat) (nb frag : List Char) :
    extensionLoop g bud p acc nb frag = acc + ext bud (g.m_sequence.drop p) frag := by
  induction frag generalizing bud p acc nb with
  | nil => simp [extensionLoop, ext_nil_right]
  | cons f rest ih =>
    by_cases hp : p < g.m_sequence.length
    · have hex : g.extract (p : Int) 1 nb = (true, substr g.m_sequence p 1) := by
        have := Genome.extract_ok g p 1 nb (by decide) (by unfold Genome.length; omega)
        simpa using this
      have hdrop : g.m_sequence.drop p = g.m_sequence[p] :: g.m_sequence.drop (p + 1) :=
        List.drop_eq_getElem_cons hp
      have hsub : substr g.m_sequence p 1 = [g.m_sequence[p]] := by
        unfold substr; rw [hdrop]; rfl
      simp only [extensionLoop, hex, hsub, List.headD_cons, hdrop, ext]
      by_cases hne : g.m_sequence[p] = f
      · simp only [hne, ne_eq, not_true_eq_false, if_false]
        rw [ih]; omega
      · simp only [hne, ne_eq, not_false_eq_true, if_true]
        by_cases hb : bud = 0
        · simp [hb]
        · simp only [hb, if_false]
          rw [ih]; omega
    · have hex : g.extract (p : Int) 1 nb = (false, nb) :=
        Genome.extract_fail g p 1 nb (by decide) (by unfold Genome.length; omega)
      have hdrop : g.m_sequence.drop p = [] := List.drop_eq_nil_of_le (by omega)
      simp [extensionLoop, hex, hdrop, ext_nil_left]

theorem lengthOfMatchAt_eq (g : Genome) (frag : List Char) (b : Bool) (p : Nat) :
    lengthOfMatchAt g frag b p = ext (budget b) (g.m_sequence.drop p) frag := by
  unfold lengthOfMatchAt budget
  rw [extensionLoop_eq]
  simp

theorem ext_le_left (bud : Nat) (xs fs : List Char) : ext bud xs fs ≤ xs.length := by
  induction xs generalizing bud fs with
  | nil => simp [ext]
  | cons x xs ih =>
    cases fs with
    | nil => simp [ext]
    | cons f fs =>
      simp only [ext, List.length_cons]
      have h1 := ih bud fs
      have h2 := ih (bud - 1) fs
      split_ifs <;> omega

theorem ext_le_right (bud : Nat) (xs fs : List Char) : ext bud xs fs ≤ fs.length := by
  induction xs generalizing bud fs with
  | nil => simp [ext]
  | cons x xs ih =>
    cases fs with
    | nil => simp [ext]
    | cons f fs =>
      simp only [ext, List.length_cons]
      have h1 := ih bud fs
      have h2 := ih (bud - 1) fs
      split_ifs <;> omega

/-- The symbols the loop counted hold at most `bud` mismatches. -/
theorem ext_mismatches (bud : Nat) (xs fs : List Char) :
    mismatches (fs.take (ext bud xs fs)) (xs.take (ext bud xs fs)) ≤ bud := by
  induction xs generalizing bud fs with
  | nil => simp [ext, mismatches]
  | cons x xs ih =>
    cases fs with
    | nil => simp [ext, mismatches]
    | cons f fs =>
      simp only [ext]
      by_cases hne : x = f
      · subst hne
        simp only [ne_eq, not_true_eq_false, if_false]
        rw [Nat.add_comm 1, List.take_succ_cons, List.take_succ_cons]
        simpa [mismatches] using ih bud fs
      · simp only [hne, ne_eq, not_false_eq_true, if_true]
        by_cases hb : bud = 0
        · simp [hb, mismatches]
        · simp only [hb, if_false]
          rw [Nat.add_comm 1, List.take_succ_cons, List.take_succ_cons]
          have hfx : ¬ f = x := fun e => hne e.symm
          have := ih (bud - 1) fs
          simp only [mismatches, hfx, if_false]
          omega

/-- The loop stops only at the end of the fragment, at the end of the genome, or where
one more symbol would be a mismatch beyond `bud`. -/
theorem ext_maximal (bud : Nat) (xs fs : List Char) :
    ext bud xs fs = fs.length ∨ ext bud xs fs = xs.length
      ∨ bud < mismatches (fs.take (ext bud xs fs + 1)) (xs.take (ext bud xs fs + 1)) := by
  induction xs generalizing bud fs with
  | nil => simp [ext]
  | cons x xs ih =>
    cases fs with
    | nil => simp [ext]
    | cons f fs =>
      simp only [ext]
      by_cases hne : x = f
      · subst hne
        simp only [ne_eq, not_true_eq_false, if_false]
        rw [Nat.add_comm 1]
        simp only [List.take_succ_cons, List.length_cons, mismatches, if_true,
          Nat.add_right_cancel_iff, Nat.zero_add]
        exact ih bud fs
      · simp only [hne, ne_eq, not_false_eq_true, if_true]
        have hfx : ¬ f = x := fun e => hne e.symm
        by_cases hb : bud = 0
        · right; right
          simp [hb, mismatches, hfx]
        · simp only [hb, if_false]
          rw [Nat.add_comm 1]
          simp only [List.take_succ_cons, List.length_cons, mismatches, hfx, if_false,
            Nat.add_right_cancel_iff]
          rcases ih (bud - 1) fs with h | h | h
          · exact Or.inl h
          · exact Or.inr (Or.inl h)
          · exact Or.inr (Or.inr (by omega))

/-- Without a budget the loop counts a common prefix. -/
theorem ext_zero_prefix (xs fs : List Char) (n : Nat) (h : n ≤ ext 0 xs fs) :
    xs.take n = fs.take n := by
  induction xs generalizing fs n with
  | nil =>
    have : n = 0 := by simpa [ext] using h
    subst this; simp
  | cons x xs ih =>
    cases fs with
    | nil =>
      have : n = 0 := by simpa [ext] using h
      subst this; simp
    | cons f fs =>
      cases n with
      | zero => simp
      | succ n =>
        simp only [ext] at h
        by_cases hne : x = f
        · subst hne
          simp only [ne_eq, not_true_eq_false, if_false] at h
          simp only [List.take_succ_cons]
          rw [ih fs n (by omega)]
        · simp [hne] at h

/-- Without a budget the loop counts all of a common prefix. -/
theorem ext_zero_ge_of_prefix (xs fs : List Char) (n : Nat) (hx : n ≤ xs.length)
    (hf : n ≤ fs.length) (h : xs.take n = fs.take n) : n ≤ ext 0 xs fs := by
  induction xs generalizing fs n with
  | nil =>
    have : n = 0 := by simpa using hx
    subst this; exact Nat.zero_le _
  | cons x xs ih =>
    cases n with
    | zero => exact Nat.zero_le _
    | succ n =>
      cases fs with
      | nil => simp at hf
      | cons f fs =>
        simp only [List.take_succ_cons, List.cons.injEq] at h
        simp only [List.length_cons] at hx hf
        rcases h with ⟨rfl, h⟩
        simp only [ext, ne_eq, not_true_eq_false, if_false]
        have := ih fs n (by omega) (by omega) h
        omega

end Extension

/-! ## The matcher: the reduction to one match per name -/

section Reduction

theorem MatchesMap.find_some {mm : MatchesMap} {key : List Char}
    {e : List Char × (Nat × Nat)} (h : MatchesMap.find mm key = some e) :
    e ∈ mm ∧ e.1 = key := by
  unfold MatchesMap.find at h
  exact ⟨List.mem_of_find?_eq_some h, by simpa using List.find?_some h⟩

theorem MatchesMap.find_none {mm : MatchesMap} {key : List Char}
    (h : MatchesMap.find mm key = none) : ∀ e ∈ mm, e.1 ≠ key := by
  unfold MatchesMap.find at h
  intro e he
  simpa using List.find?_eq_none.1 h e he

theorem MatchesMap.at_of_find {mm : MatchesMap} {key : List Char}
    {e : List Char × (Nat × Nat)} (h : MatchesMap.find mm key = some e) :
    MatchesMap.at mm key = e.2 := by
  unfold MatchesMap.at
  rw [h]

theorem MatchesMap.find_of_mem {mm : MatchesMap} (hnd : (mm.map Prod.fst).Nodup)
    {e : List Char × (Nat × Nat)} (he : e ∈ mm) : MatchesMap.find mm e.1 = some e := by
  induction mm with
  | nil => simp at he
  | cons x xs ih =>
    rw [List.map_cons, List.nodup_cons] at hnd
    unfold MatchesMap.find
    rcases List.mem_cons.1 he with h | h
    · subst h
      simp [List.find?_cons]
    · have hne : ¬ x.1 = e.1 := by
        intro heq
        exact hnd.1 (heq ▸ List.mem_map_of_mem Prod.fst h)
      have := ih hnd.2 h
      unfold MatchesMap.find at this
      simp [List.find?_cons, hne, this]

theorem MatchesMap.assign_of_none {mm : MatchesMap} {key : List Char}
    (h : MatchesMap.find mm key = none) (v : Nat × Nat) :
    MatchesMap.assign mm key v = mm ++ [(key, v)] := by
  unfold MatchesMap.assign
  rw [h]
  simp

theorem MatchesMap.find_erase (mm : MatchesMap) (key : List Char) :
    MatchesMap.find (MatchesMap.erase mm key) key = none := by
  unfold MatchesMap.find MatchesMap.erase
  rw [List.find?_eq_none]
  intro e he
  have := (List.mem_filter.1 he).2
  simpa using this

theorem MatchesMap.erase_of_none {mm : MatchesMap} {key : List Char}
    (h : MatchesMap.find mm key = none) : MatchesMap.erase mm key = mm := by
  unfold MatchesMap.erase
  rw [List.filter_eq_self]
  intro e he
  simpa using MatchesMap.find_none h e he

variable {m : GenomeMatcherImpl} {frag : List Char} {minLen : Int} {b : Bool}

theorem MapInv.empty : MapInv m frag minLen b [] [] :=
  ⟨by simp, by simp, by simp⟩

/-- A round for a potential match that does not qualify. -/
theorem MapInv.skip {mm : MatchesMap} {cands : List (Nat × Nat)}
    (hinv : MapInv m frag minLen b mm cands) (c : Nat × Nat)
    (hq : ∀ name L, ¬ Qualifies m frag minLen b c name L) :
    MapInv m frag minLen b mm (cands ++ [c]) := by
  refine ⟨hinv.nodup, ?_, ?_⟩
  · intro e he
    rcases hinv.best e he with ⟨⟨c0, hc0, h0⟩, hall⟩
    refine ⟨⟨c0, List.mem_append_left _ hc0, h0⟩, ?_⟩
    intro c1 hc1 L hL
    rcases List.mem_append.1 hc1 with h | h
    · exact hall c1 h L hL
    · simp only [List.mem_singleton] at h
      subst h
      exact absurd hL (hq _ _)
  · intro c1 hc1 name L hL
    rcases List.mem_append.1 hc1 with h | h
    · exact hinv.covered c1 h name L hL
    · simp only [List.mem_singleton] at h
      subst h
      exact absurd hL (hq _ _)

/-- A round for a qualifying potential match that the stored one of its name beats. -/
theorem MapInv.keep {mm : MatchesMap} {cands : List (Nat × Nat)}
    (hinv : MapInv m frag minLen b mm cands) (c : Nat × Nat) (name : List Char) (L : Nat)
    (huniq : ∀ name1 L1, Qualifies m frag minLen b c name1 L1 → name1 = name ∧ L1 = L)
    (e : List Char × (Nat × Nat)) (he : e ∈ mm) (hname : e.1 = name)
    (hle : L ≤ e.2.1) (htie : L = e.2.1 → e.2.2 ≤ c.2) :
    MapInv m frag minLen b mm (cands ++ [c]) := by
  refine ⟨hinv.nodup, ?_, ?_⟩
  · intro e1 he1
    rcases hinv.best e1 he1 with ⟨⟨c0, hc0, h0⟩, hall⟩
    refine ⟨⟨c0, List.mem_append_left _ hc0, h0⟩, ?_⟩
    intro c1 hc1 L1 hL1
    rcases List.mem_append.1 hc1 with h | h
    · exact hall c1 h L1 hL1
    · simp only [List.mem_singleton] at h
      subst h
      rcases huniq _ _ hL1 with ⟨hn, hl⟩
      have hee : e1 = e := by
        have h1 := MatchesMap.find_of_mem hinv.nodup he1
        have h2 := MatchesMap.find_of_mem hinv.nodup he
        rw [hn, ← hname, h2] at h1
        exact (Option.some.inj h1).symm
      subst hee
      subst hl
      exact ⟨hle, htie⟩
  · intro c1 hc1 name1 L1 hL1
    rcases List.mem_append.1 hc1 with h | h
    · exact hinv.covered c1 h name1 L1 hL1
    · simp only [List.mem_singleton] at h
      subst h
      rcases huniq _ _ hL1 with ⟨hn, _⟩
      exact ⟨e, he, by rw [hname, hn]⟩

/-- A round for a qualifying potential match that takes the place of its name. -/
theorem MapInv.replace {mm : MatchesMap} {cands : List (Nat × Nat)}
    (hinv : MapInv m frag minLen b mm cands) (c : Nat × Nat) (name : List Char) (L : Nat)
    (hq : Qualifies m frag minLen b c name L)
    (huniq : ∀ name1 L1, Qualifies m frag minLen b c name1 L1 → name1 = name ∧ L1 = L)
    (hwin : ∀ e ∈ mm, e.1 = name → e.2.1 ≤ L ∧ (L = e.2.1 → c.2 ≤ e.2.2)) :
    MapInv m frag minLen b (MatchesMap.erase mm name ++ [(name, (L, c.2))])
      (cands ++ [c]) := by
  have hmem : ∀ e, e ∈ MatchesMap.erase mm name ↔ e ∈ mm ∧ e.1 ≠ name := by
    intro e
    unfold MatchesMap.erase
    simp [List.mem_filter]
  refine ⟨?_, ?_, ?_⟩
  · rw [List.map_append, List.nodup_append]
    refine ⟨?_, by simp, ?_⟩
    · exact List.Nodup.sublist (List.Sublist.map _ (List.filter_sublist _)) hinv.nodup
    · intro a ha hb
      simp only [List.map_cons, List.map_nil, List.mem_singleton] at hb
      subst hb
      rcases List.mem_map.1 ha with ⟨e, he, he1⟩
      exact ((hmem e).1 he).2 he1
  · intro e1 he1
    rcases List.mem_append.1 he1 with h | h
    · rcases (hmem e1).1 h with ⟨hin, hne⟩
      rcases hinv.best e1 hin with ⟨⟨c0, hc0, h0⟩, hall⟩
      refine ⟨⟨c0, List.mem_append_left _ hc0, h0⟩, ?_⟩
      intro c1 hc1 L1 hL1
      rcases List.mem_append.1 hc1 with h' | h'
      · exact hall c1 h' L1 hL1
      · simp only [List.mem_singleton] at h'
        subst h'
        exact absurd (huniq _ _ hL1).1 hne
    · simp only [List.mem_singleton] at h
      subst h
      refine ⟨⟨c, by simp, rfl, hq⟩, ?_⟩
      intro c1 hc1 L1 hL1
      rcases List.mem_append.1 hc1 with h' | h'
      · rcases hinv.covered c1 h' name L1 hL1 with ⟨e, he, hen⟩
        have hb := (hinv.best e he).2 c1 h' L1 (by rw [hen]; exact hL1)
        have hw := hwin e he hen
        simp only
        constructor
        · omega
        · intro hL
          have h1 := hb.2 (by omega)
          have h2 := hw.2 (by omega)
          omega
      · simp only [List.mem_singleton] at h'
        subst h'
        have := (huniq _ _ hL1).2
        simp only
        exact ⟨by omega, fun _ => Nat.le_refl _⟩
  · intro c1 hc1 name1 L1 hL1
    by_cases hn : name1 = name
    · exact ⟨(name, (L, c.2)), by simp, hn.symm⟩
    · rcases List.mem_append.1 hc1 with h | h
      · rcases hinv.covered c1 h name1 L1 hL1 with ⟨e, he, hen⟩
        exact ⟨e, List.mem_append_left _ ((hmem e).2 ⟨he, by rw [hen]; exact hn⟩), hen⟩
      · simp only [List.mem_singleton] at h
        subst h
        exact absurd (huniq _ _ hL1).1 hn

/-- One round of the loop over the potential matches keeps `MapInv`. -/
theorem MapInv.step {mm : MatchesMap} {cands : List (Nat × Nat)}
    (hinv : MapInv m frag minLen b mm cands) (c : Nat × Nat) :
    MapInv m frag minLen b (matchRound m frag minLen b mm c) (cands ++ [c]) := by
  unfold matchRound
  simp only
  cases hg : m.m_genomes[c.1]? with
  | none =>
    simp only
    apply hinv.skip
    rintro name L ⟨g, h1, _⟩
    rw [hg] at h1
    exact Option.noConfusion h1
  | some g =>
    simp only
    have huniq : ∀ name1 L1, Qualifies m frag minLen b c name1 L1 →
        name1 = g.name ∧ L1 = lengthOfMatchAt g frag b c.2 := by
      rintro name1 L1 ⟨g1, h1, h2, h3, _⟩
      rw [hg] at h1
      have := Option.some.inj h1
      subst this
      exact ⟨h2.symm, h3.symm⟩
    by_cases hL : (lengthOfMatchAt g frag b c.2 : Int) ≥ minLen
    · rw [if_pos hL]
      have hq : Qualifies m frag minLen b c g.name (lengthOfMatchAt g frag b c.2) :=
        ⟨g, hg, rfl, rfl, hL⟩
      cases hf : MatchesMap.find mm g.name with
      | none =>
        simp only
        rw [MatchesMap.assign_of_none hf, ← MatchesMap.erase_of_none hf]
        apply hinv.replace c g.name _ hq huniq
        intro e he hen
        exact absurd hen (MatchesMap.find_none hf e he)
      | some e =>
        simp only
        rw [MatchesMap.at_of_find hf]
        rcases MatchesMap.find_some hf with ⟨he, hen⟩
        by_cases h1 : lengthOfMatchAt g frag b c.2 < e.2.1
        · rw [if_pos h1]
          exact hinv.keep c g.name _ huniq e he hen (by omega) (by omega)
        · rw [if_neg h1]
          by_cases h2 : lengthOfMatchAt g frag b c.2 = e.2.1 ∧ e.2.2 < c.2
          · rw [if_pos h2]
            exact hinv.keep c g.name _ huniq e he hen (by omega) (by omega)
          · rw [if_neg h2, MatchesMap.assign_of_none (MatchesMap.find_erase _ _)]
            apply hinv.replace c g.name _ hq huniq
            intro e1 he1 hen1
            have hee : e1 = e := by
              have h3 := MatchesMap.find_of_mem hinv.nodup he1
              rw [hen1, hf] at h3
              exact (Option.some.inj h3).symm
            subst hee
            omega
    · rw [if_neg hL]
      apply hinv.skip
      rintro name L hqual
      rcases huniq _ _ hqual with ⟨_, hl⟩
      rcases hqual with ⟨_, _, _, _, h4⟩
      subst hl
      exact hL h4

theorem MapInv.foldl {mm : MatchesMap} {pre : List (Nat × Nat)}
    (hinv : MapInv m frag minLen b mm pre) (rest : List (Nat × Nat)) :
    MapInv m frag minLen b (rest.foldl (matchRound m frag minLen b) mm) (pre ++ rest) := by
  induction rest generalizing mm pre with
  | nil => simpa using hinv
  | cons c rest ih =>
    rw [List.foldl_cons]
    have := ih (hinv.step c)
    simpa using this

/-- The `matchesMap` of a whole call. -/
theorem MapInv.final (m : GenomeMatcherImpl) (frag : List Char) (minLen : Int) (b : Bool)
    (cands : List (Nat × Nat)) :
    MapInv m frag minLen b (cands.foldl (matchRound m frag minLen b) []) cands := by
  have := MapInv.foldl (MapInv.empty : MapInv m frag minLen b [] []) cands
  simpa using this

theorem GenomeMatcherImpl.matchesMap_inv (m : GenomeMatcherImpl) (frag : List Char)
    (minLen : Int) (b : Bool) :
    MapInv m frag minLen b (m.matchesMap frag minLen b) (m.potentialMatches frag b) :=
  MapInv.final m frag minLen b _

/-- The outcome of `findGenomesWithThisDNA` in terms of the final `matchesMap`. -/
theorem GenomeMatcherImpl.findGenomesWithThisDNA_eq (m : GenomeMatcherImpl)
    (frag : List Char) (minLen : Int) (b : Bool) (matches0 : List DNAMatch) :
    m.findGenomesWithThisDNA frag minLen b matches0
      = if frag.length < toSizeT minLen ∨ minLen < m.m_minSearchLength then (false, matches0)
        else if m.matchesMap frag minLen b = [] then (false, [])
        else (true, (m.matchesMap frag minLen b).map (fun e => DNAMatch.mk e.1 e.2.1 e.2.2)) := by
  unfold GenomeMatcherImpl.findGenomesWithThisDNA
  by_cases hg : frag.length < toSizeT minLen ∨ minLen < m.m_minSearchLength
  · rw [if_pos hg, if_pos hg]
  · rw [if_neg hg, if_neg hg]
    simp only
    by_cases he : m.matchesMap frag minLen b = []
    · simp [he]
    · have he2 : (m.matchesMap frag minLen b).isEmpty = false := by
        cases h : m.matchesMap frag minLen b with
        | nil => exact absurd h he
        | cons x xs => rfl
      rw [if_neg he, he2]
      simp only [Bool.false_eq_true, if_false, Prod.mk.injEq, true_and]
      apply List.map_congr_left
      intro e he
      rw [MatchesMap.at_of_find
        (MatchesMap.find_of_mem (m.matchesMap_inv frag minLen b).nodup he)]

/-- A successful call passed the two checks and left a non-empty `matchesMap`; its
result lists the elements of that map. -/
theorem GenomeMatcherImpl.success_iff (m : GenomeMatcherImpl) (frag : List Char)
    (minLen : Int) (b : Bool) (matches0 : List DNAMatch) :
    (m.findGenomesWithThisDNA frag minLen b matches0).1 = true
      ↔ ¬ (frag.length < toSizeT minLen ∨ minLen < m.m_minSearchLength)
        ∧ m.matchesMap frag minLen b ≠ [] := by
  rw [GenomeMatcherImpl.findGenomesWithThisDNA_eq]
  by_cases hg : frag.length < toSizeT minLen ∨ minLen < m.m_minSearchLength
  · simp [hg]
  · by_cases he : m.matchesMap frag minLen b = []
    · simp [hg, he]
    · simp [hg, he]

theorem GenomeMatcherImpl.result_of_success (m : GenomeMatcherImpl) (frag : List Char)
    (minLen : Int) (b : Bool) (matches0 : List DNAMatch)
    (hok : (m.findGenomesWithThisDNA frag minLen b matches0).1 = true) :
    (m.findGenomesWithThisDNA frag minLen b matches0).2
      = (m.matchesMap frag minLen b).map (fun e => DNAMatch.mk e.1 e.2.1 e.2.2) := by
  rcases (m.success_iff frag minLen b matches0).1 hok with ⟨hg, he⟩
  rw [GenomeMatcherImpl.findGenomesWithThisDNA_eq, if_neg hg, if_neg he]

theorem GenomeMatcherImpl.mem_result (m : GenomeMatcherImpl) (frag : List Char)
    (minLen : Int) (b : Bool) (matches0 : List DNAMatch)
    (hok : (m.findGenomesWithThisDNA frag minLen b matches0).1 = true) (d : DNAMatch) :
    d ∈ (m.findGenomesWithThisDNA frag minLen b matches0).2
      ↔ (d.genomeName, (d.length, d.position)) ∈ m.matchesMap frag minLen b := by
  rw [m.result_of_success frag minLen b matches0 hok, List.mem_map]
  constructor
  · rintro ⟨e, he, rfl⟩
    exact he
  · intro h
    exact ⟨_, h, rfl⟩

theorem GenomeMatcherImpl.mem_matchesMap_name (m : GenomeMatcherImpl) (frag : List Char)
    (minLen : Int) (b : Bool) (name : List Char) :
    (∃ e ∈ m.matchesMap frag minLen b, e.1 = name)
      ↔ ∃ c ∈ m.potentialMatches frag b, ∃ L, Qualifies m frag minLen b c name L := by
  have hinv := m.matchesMap_inv frag minLen b
  constructor
  · rintro ⟨e, he, rfl⟩
    rcases (hinv.best e he).1 with ⟨c, hc, _, hq⟩
    exact ⟨c, hc, _, hq⟩
  · rintro ⟨c, hc, L, hq⟩
    exact hinv.covered c hc name L hq

/-- In exact mode, on a matcher built with a seed length of at least 1: some potential
match in a genome called `name` qualifies exactly when a genome called `name` contains
the first `minLen` symbols of the fragment. -/
theorem GenomeMatcherImpl.exact_qualifies_iff (k : Int) (hk : 1 ≤ k) (gs : List Genome)
    (frag : List Char) (minLen : Int) (h1 : k ≤ minLen) (h2 : minLen ≤ (frag.length : Int))
    (name : List Char) :
    (∃ c ∈ (GenomeMatcherImpl.build k gs).potentialMatches frag true,
        ∃ L, Qualifies (GenomeMatcherImpl.build k gs) frag minLen true c name L)
      ↔ ∃ g ∈ gs, g.name = name ∧ frag.take minLen.toNat <:+: g.m_sequence := by
  have hseed : substr frag 0 (toSizeT k) = frag.take k.toNat := by
    rw [toSizeT_of_nonneg (by omega)]; rfl
  have hmem : ∀ i p : Nat, (i, p) ∈ (GenomeMatcherImpl.build k gs).potentialMatches frag true
      ↔ ∃ g, gs[i]? = some g ∧ p < rounds k g
          ∧ frag.take k.toNat = (g.extract (p : Int) k []).2 := by
    intro i p
    have hk' : (GenomeMatcherImpl.build k gs).m_minSearchLength = k := by
      rw [GenomeMatcherImpl.build_eq]
    unfold GenomeMatcherImpl.potentialMatches
    simp only [hk', hseed]
    exact GenomeMatcherImpl.mem_find_exact k gs _ i p
  have hgen : (GenomeMatcherImpl.build k gs).m_genomes = gs := by
    rw [GenomeMatcherImpl.build_eq]
  constructor
  · rintro ⟨⟨i, p⟩, hc, L, g, hg, hname, hlen, hmin⟩
    simp only [hgen] at hg
    refine ⟨g, List.getElem?_mem hg, hname, ?_⟩
    simp only at hlen
    rw [lengthOfMatchAt_eq] at hlen
    have hpre := ext_zero_prefix (g.m_sequence.drop p) frag minLen.toNat
      (by simp only [budget, if_true] at hlen; omega)
    refine ⟨g.m_sequence.take p, (g.m_sequence.drop p).drop minLen.toNat, ?_⟩
    rw [← hpre, List.append_assoc, List.take_append_drop, List.take_append_drop]
  · rintro ⟨g, hg, hname, s, t, hst⟩
    rcases List.getElem?_of_mem hg with ⟨i, hi⟩
    have hlen_take : (frag.take minLen.toNat).length = minLen.toNat := by
      rw [List.length_take]; omega
    have hseq_len : g.m_sequence.length = s.length + minLen.toNat + t.length := by
      rw [← hst]; simp [hlen_take]; omega
    have hdrop : g.m_sequence.drop s.length = frag.take minLen.toNat ++ t := by
      rw [← hst, List.append_assoc, List.drop_left]
    have hp : (s.length : Int) + k ≤ g.length := by
      unfold Genome.length; omega
    refine ⟨(i, s.length), (hmem i s.length).2 ⟨g, hi, ?_, ?_⟩, _, g, ?_, hname, rfl, ?_⟩
    · rw [lt_rounds_iff]; omega
    · rw [Genome.extract_ok g s.length k [] (by omega) hp]
      simp only [substr]
      rw [hdrop, List.take_append_of_le_length (by omega), List.take_take]
      congr 1
      omega
    · simp only [hgen]; exact hi
    · simp only
      rw [lengthOfMatchAt_eq, hdrop]
      have := ext_zero_ge_of_prefix (frag.take minLen.toNat ++ t) frag minLen.toNat
        (by simp [hlen_take]) (by omega)
        (by rw [List.take_append_of_le_length (by omega), List.take_take]; simp)
      simp only [budget, if_true]
      omega

end Reduction

/-! ## Exact and tolerant mode compared -/

section Monotone

theorem flatMap_sublist_flatMap {α β : Type} (l : List α) (f g : α → List β)
    (h : ∀ a ∈ l, (f a).Sublist (g a)) : (l.flatMap f).Sublist (l.flatMap g) := by
  induction l with
  | nil => simp
  | cons a l ih =>
    rw [List.flatMap_cons, List.flatMap_cons]
    exact List.Sublist.append (h a (List.mem_cons_self _ _))
      (ih (fun x hx => h x (List.mem_cons_of_mem _ hx)))

/-- Below any node the exact lookup returns a sub-list of what the tolerant lookup
returns. -/
theorem findHelper_exact_sublist {V : Type} (n : Node V) (k : List Char) :
    (findHelper n k true []).Sublist (findHelper n k false []) := by
  induction k generalizing n with
  | nil => simp [findHelper_nil]
  | cons base r ih =>
    rw [findHelper_cons, findHelper_cons]
    apply flatMap_sublist_flatMap
    intro c _
    by_cases h : c.1 = base
    · simpa [childStep, h] using ih c.2
    · simp [childStep, h]

theorem Trie.find_exact_sublist {V : Type} (t : Trie V) (k : List Char) :
    (t.find k true).Sublist (t.find k false) := by
  cases k with
  | nil => simp [Trie.find]
  | cons base r =>
    simp only [Trie.find]
    cases t.m_root.m_children[scan t.m_root.m_children base]? with
    | none => simp
    | some c => exact findHelper_exact_sublist c.2 r

/-- A larger budget never shortens the extension. -/
theorem ext_mono (bud bud1 : Nat) (h : bud ≤ bud1) (xs fs : List Char) :
    ext bud xs fs ≤ ext bud1 xs fs := by
  induction xs generalizing bud bud1 fs with
  | nil => simp [ext]
  | cons x xs ih =>
    cases fs with
    | nil => simp [ext]
    | cons f fs =>
      simp only [ext]
      by_cases hne : x = f
      · simp only [hne, ne_eq, not_true_eq_false, if_false]
        have := ih bud bud1 h fs
        omega
      · simp only [hne, ne_eq, not_false_eq_true, if_true]
        by_cases hb : bud = 0
        · simp [hb]
        · have hb1 : ¬ bud1 = 0 := by omega
          simp only [hb, hb1, if_false]
          have := ih (bud - 1) (bud1 - 1) (by omega) fs
          omega

theorem lengthOfMatchAt_exact_le (g : Genome) (frag : List Char) (p : Nat) :
    lengthOfMatchAt g frag true p ≤ lengthOfMatchAt g frag false p := by
  rw [lengthOfMatchAt_eq, lengthOfMatchAt_eq]
  exact ext_mono _ _ (by simp [budget]) _ _

end Monotone

/-! ## Claims on the trie -/

/-- C1: on a trie built from the empty trie by a sequence of `insert` calls, an exact
`find` of any key `k`, the empty key included, returns exactly the values inserted under
`k`, each as often as it was inserted and in insertion order, and nothing inserted under
another key. -/
theorem C1_find_exact_returns_inserted {V : Type} (ops : List (List Char × V))
    (k : List Char) :
    (Trie.build ops).find k true
      = (ops.filter (fun op => decide (op.1 = k))).map Prod.snd := by
  rw [Trie.find_exact _ (Trie.build_distinct ops), Trie.build_content]

/-- C2, as stated, fails: with only `"AC"` inserted (value `1`), the tolerant lookup of
`"TC"`, which differs from `"AC"` in the first position only, returns nothing. -/
theorem C2_counterexample :
    (("AC".toList, 1) ∈ [("AC".toList, 1)]
      ∧ "AC".toList.length = "TC".toList.length
      ∧ mismatches "TC".toList "AC".toList ≤ 1)
    ∧ (Trie.build [("AC".toList, 1)]).find "TC".toList false = [] := by
  decide

/-- C2, amended: on a trie built by inserts, the tolerant `find` of a non-empty key `k`
returns every value inserted under a key `k'` that has the length of `k`, the first
symbol of `k`, and differs from `k` in at most one position. -/
theorem C2_find_tolerant_complete_after_first {V : Type} (ops : List (List Char × V))
    (k k' : List Char) (v : V) (hk : k ≠ []) (hhead : k'.head? = k.head?)
    (hlen : k'.length = k.length) (hm : mismatches k k' ≤ 1) (hins : (k', v) ∈ ops) :
    v ∈ (Trie.build ops).find k false := by
  cases k with
  | nil => exact absurd rfl hk
  | cons base r =>
    cases k' with
    | nil => simp at hlen
    | cons base' r' =>
      simp only [List.head?_cons, Option.some.injEq] at hhead
      subst hhead
      simp only [List.length_cons, Nat.add_right_cancel_iff] at hlen
      rw [Trie.mem_find_cons _ (Trie.build_distinct ops)]
      refine ⟨r', hlen, by simpa [mismatches, budget] using hm, ?_⟩
      rw [Trie.build_content]
      exact List.mem_map.2 ⟨(base' :: r', v), List.mem_filter.2 ⟨hins, by simp⟩, rfl⟩

/-- C2, amended, at work: `"AG"` is found from `"AC"`. -/
theorem C2_find_tolerant_complete_after_first_witness :
    2 ∈ (Trie.build [("AC".toList, 1), ("AG".toList, 2)]).find "AC".toList false :=
  C2_find_tolerant_complete_after_first [("AC".toList, 1), ("AG".toList, 2)]
    "AC".toList "AG".toList 2 (by decide) (by decide) (by decide) (by decide) (by decide)

/-- C3: on a trie built by inserts, every value that `find(k, exactMatchOnly)` returns
was inserted under a key of the length of `k` that differs from `k` in at most one
position when `exactMatchOnly` is false and in no position when it is true. -/
theorem C3_find_sound {V : Type} (ops : List (List Char × V)) (k : List Char) (b : Bool)
    (v : V) (hv : v ∈ (Trie.build ops).find k b) :
    ∃ k', (k', v) ∈ ops ∧ k'.length = k.length
      ∧ mismatches k k' ≤ (if b then 0 else 1) := by
  have key : ∀ k' : List Char, v ∈ findHelper (Trie.build ops).m_root k' true []
      → (k', v) ∈ ops := by
    intro k' h
    rw [Trie.build_content] at h
    rcases List.mem_map.1 h with ⟨op, hop, hv⟩
    rcases List.mem_filter.1 hop with ⟨hmem, hk⟩
    have hk' : op.1 = k' := by simpa using hk
    have : op = (k', v) := by
      cases op; simp only at hk' hv; rw [hk', hv]
    rw [← this]; exact hmem
  cases k with
  | nil =>
    refine ⟨[], key [] ?_, rfl, by simp [mismatches]⟩
    simpa [Trie.find, findHelper_nil] using hv
  | cons base r =>
    rcases (Trie.mem_find_cons _ (Trie.build_distinct ops) base r b v).1 hv with
      ⟨r', hl, hm, hin⟩
    refine ⟨base :: r', key _ hin, by simp [hl], ?_⟩
    simpa [mismatches, budget] using hm

/-- C3 at work: the value `2` that the tolerant lookup of `"AC"` returns was inserted
under `"AG"`. -/
theorem C3_find_sound_witness :
    2 ∈ (Trie.build [("AC".toList, 1), ("AG".toList, 2)]).find "AC".toList false
    ∧ ∃ k', (k', 2) ∈ [("AC".toList, 1), ("AG".toList, 2)]
        ∧ k'.length = "AC".toList.length
        ∧ mismatches "AC".toList k' ≤ (if false then 0 else 1) :=
  ⟨by decide,
    C3_find_sound [("AC".toList, 1), ("AG".toList, 2)] "AC".toList false 2 (by decide)⟩

/-! ## Claims on the matcher -/

/-- C4: in a matcher with seed length `k >= 1` to which the genomes `gs` were added in
order, the exact trie lookup of a string `s` of length `k` returns exactly the pairs
`(i, p)` with `0 <= p <= length(gs[i]) - k` whose length-`k` substring of `gs[i]` at `p`
is `s`, each pair once; a genome shorter than `k` contributes no pair. -/
theorem C4_seed_lookup_lists_occurrences (k : Int) (hk : 1 ≤ k) (gs : List Genome)
    (s : List Char) (hs : (s.length : Int) = k) :
    ((GenomeMatcherImpl.build k gs).m_sequences.find s true).Nodup
    ∧ (∀ i p : Nat, (i, p) ∈ (GenomeMatcherImpl.build k gs).m_sequences.find s true
        ↔ ∃ g, gs[i]? = some g ∧ (p : Int) ≤ g.length - k
            ∧ substr g.m_sequence p s.length = s)
    ∧ (∀ (i p : Nat) (g : Genome), gs[i]? = some g → g.length < k →
        (i, p) ∉ (GenomeMatcherImpl.build k gs).m_sequences.find s true) := by
  have hkn : k.toNat = s.length := by omega
  have main : ∀ i p : Nat, (i, p) ∈ (GenomeMatcherImpl.build k gs).m_sequences.find s true
        ↔ ∃ g, gs[i]? = some g ∧ (p : Int) ≤ g.length - k
            ∧ substr g.m_sequence p s.length = s := by
    intro i p
    rw [GenomeMatcherImpl.mem_find_exact]
    constructor
    · rintro ⟨g, h1, h2, h3⟩
      have h2' := (lt_rounds_iff k g p).1 h2
      rw [Genome.extract_ok g p k [] (by omega) (by omega), hkn] at h3
      exact ⟨g, h1, h2', h3.symm⟩
    · rintro ⟨g, h1, h2, h3⟩
      refine ⟨g, h1, (lt_rounds_iff k g p).2 h2, ?_⟩
      rw [Genome.extract_ok g p k [] (by omega) (by omega), hkn]
      exact h3.symm
  refine ⟨GenomeMatcherImpl.find_exact_nodup k gs s, main, ?_⟩
  intro i p g hg hlt hmem
  rcases (main i p).1 hmem with ⟨g', hg', hp, _⟩
  rw [hg] at hg'
  simp only [Option.some.injEq] at hg'
  subst hg'
  omega

/-- C4 at work: seed length 2, genomes `"ACAC"` and `"C"`; the lookup of `"AC"`. -/
theorem C4_seed_lookup_lists_occurrences_witness :
    ((GenomeMatcherImpl.build 2 [⟨"G1".toList, "ACAC".toList⟩,
        ⟨"G2".toList, "C".toList⟩]).m_sequences.find "AC".toList true).Nodup
    ∧ (∀ i p : Nat, (i, p) ∈ (GenomeMatcherImpl.build 2 [⟨"G1".toList, "ACAC".toList⟩,
          ⟨"G2".toList, "C".toList⟩]).m_sequences.find "AC".toList true
        ↔ ∃ g, [(⟨"G1".toList, "ACAC".toList⟩ : Genome), ⟨"G2".toList, "C".toList⟩][i]?
              = some g
            ∧ (p : Int) ≤ g.length - 2
            ∧ substr g.m_sequence p "AC".toList.length = "AC".toList)
    ∧ (∀ (i p : Nat) (g : Genome),
        [(⟨"G1".toList, "ACAC".toList⟩ : Genome), ⟨"G2".toList, "C".toList⟩][i]? = some g →
        g.length < 2 →
        (i, p) ∉ (GenomeMatcherImpl.build 2 [⟨"G1".toList, "ACAC".toList⟩,
          ⟨"G2".toList, "C".toList⟩]).m_sequences.find "AC".toList true) :=
  C4_seed_lookup_lists_occurrences 2 (by decide)
    [⟨"G1".toList, "ACAC".toList⟩, ⟨"G2".toList, "C".toList⟩] "AC".toList (by decide)

/-- C5: for a matcher with seed length `k >= 1` built from the genomes `gs`, the exact
`findGenomesWithThisDNA(fragment, minimumLength, true)` reports success if and only if
`k <= minimumLength <= length(fragment)` and some genome of `gs` contains the first
`minimumLength` symbols of `fragment` as a contiguous substring; on success the result
has a `DNAMatch` for the name of every such genome and for no other name. -/
theorem C5_exact_success_iff (k : Int) (hk : 1 ≤ k) (gs : List Genome)
    (fragment : List Char) (minimumLength : Int) (matches0 : List DNAMatch) :
    (((GenomeMatcherImpl.build k gs).findGenomesWithThisDNA fragment minimumLength true
        matches0).1 = true
      ↔ (k ≤ minimumLength ∧ minimumLength ≤ (fragment.length : Int)
          ∧ ∃ g ∈ gs, fragment.take minimumLength.toNat <:+: g.m_sequence))
    ∧ (((GenomeMatcherImpl.build k gs).findGenomesWithThisDNA fragment minimumLength true
        matches0).1 = true →
      ∀ name : List Char,
        (∃ d ∈ ((GenomeMatcherImpl.build k gs).findGenomesWithThisDNA fragment
            minimumLength true matches0).2, d.genomeName = name)
        ↔ ∃ g ∈ gs, g.name = name
            ∧ fragment.take minimumLength.toNat <:+: g.m_sequence) := by
  have hk' : (GenomeMatcherImpl.build k gs).m_minSearchLength = k := by
    rw [GenomeMatcherImpl.build_eq]
  have hguard : ¬ (fragment.length < toSizeT minimumLength
        ∨ minimumLength < (GenomeMatcherImpl.build k gs).m_minSearchLength)
      ↔ (k ≤ minimumLength ∧ minimumLength ≤ (fragment.length : Int)) := by
    rw [hk']
    by_cases h : minimumLength < k
    · constructor
      · intro h'; exact absurd (Or.inr h) h'
      · intro h'; omega
    · rw [toSizeT_of_nonneg (by omega)]; omega
  have hnames : k ≤ minimumLength → minimumLength ≤ (fragment.length : Int) →
      ∀ name : List Char,
        (∃ e ∈ (GenomeMatcherImpl.build k gs).matchesMap fragment minimumLength true,
          e.1 = name)
        ↔ ∃ g ∈ gs, g.name = name
            ∧ fragment.take minimumLength.toNat <:+: g.m_sequence := by
    intro h1 h2 name
    rw [GenomeMatcherImpl.mem_matchesMap_name]
    exact GenomeMatcherImpl.exact_qualifies_iff k hk gs fragment minimumLength h1 h2 name
  constructor
  · rw [GenomeMatcherImpl.success_iff, hguard]
    constructor
    · rintro ⟨⟨h1, h2⟩, hne⟩
      refine ⟨h1, h2, ?_⟩
      cases hmm : (GenomeMatcherImpl.build k gs).matchesMap fragment minimumLength true with
      | nil => exact absurd hmm hne
      | cons e es =>
        rcases (hnames h1 h2 e.1).1 ⟨e, by rw [hmm]; exact List.mem_cons_self _ _, rfl⟩ with
          ⟨g, hg, _, hin⟩
        exact ⟨g, hg, hin⟩
    · rintro ⟨h1, h2, g, hg, hin⟩
      refine ⟨⟨h1, h2⟩, ?_⟩
      rcases (hnames h1 h2 g.name).2 ⟨g, hg, rfl, hin⟩ with ⟨e, he, _⟩
      intro hnil
      rw [hnil] at he
      simp at he
  · intro hok name
    rcases ((GenomeMatcherImpl.build k gs).success_iff fragment minimumLength true
      matches0).1 hok with ⟨hg, _⟩
    rcases hguard.1 hg with ⟨h1, h2⟩
    rw [← hnames h1 h2 name,
      (GenomeMatcherImpl.build k gs).result_of_success fragment minimumLength true matches0
        hok]
    constructor
    · rintro ⟨d, hd, hdn⟩
      rcases List.mem_map.1 hd with ⟨e, he, rfl⟩
      exact ⟨e, he, hdn⟩
    · rintro ⟨e, he, hen⟩
      exact ⟨_, List.mem_map.2 ⟨e, he, rfl⟩, hen⟩

/-- C5 at work on the matcher of the scenarios, fragment `"CGTAC"`, minimum length 4. -/
theorem C5_exact_success_iff_witness :
    (((GenomeMatcherImpl.build 4 [sampleGenome]).findGenomesWithThisDNA "CGTAC".toList 4
        true []).1 = true
      ↔ ((4 : Int) ≤ 4 ∧ (4 : Int) ≤ ("CGTAC".toList.length : Int)
          ∧ ∃ g ∈ [sampleGenome],
              "CGTAC".toList.take (4 : Int).toNat <:+: g.m_sequence))
    ∧ (((GenomeMatcherImpl.build 4 [sampleGenome]).findGenomesWithThisDNA "CGTAC".toList 4
        true []).1 = true →
      ∀ name : List Char,
        (∃ d ∈ ((GenomeMatcherImpl.build 4 [sampleGenome]).findGenomesWithThisDNA
            "CGTAC".toList 4 true []).2, d.genomeName = name)
        ↔ ∃ g ∈ [sampleGenome], g.name = name
            ∧ "CGTAC".toList.take (4 : Int).toNat <:+: g.m_sequence) :=
  C5_exact_success_iff 4 (by decide) [sampleGenome] "CGTAC".toList 4 []

/-- C6: every `DNAMatch (name, L, p)` of a successful `findGenomesWithThisDNA` is a
potential match of the seed lookup in a genome called `name`, at offset `p`, with
extension length `L`; and every potential match in a genome of that name whose extension
length `L1` is at least `minimumLength` has `L1 <= L`, and `p <= p1` if `L1 = L`. -/
theorem C6_longest_then_earliest (m : GenomeMatcherImpl) (fragment : List Char)
    (minimumLength : Int) (exactMatchOnly : Bool) (matches0 : List DNAMatch) (d : DNAMatch)
    (hok : (m.findGenomesWithThisDNA fragment minimumLength exactMatchOnly matches0).1 = true)
    (hd : d ∈ (m.findGenomesWithThisDNA fragment minimumLength exactMatchOnly matches0).2) :
    (∃ c ∈ m.potentialMatches fragment exactMatchOnly, ∃ g, m.m_genomes[c.1]? = some g
        ∧ g.name = d.genomeName ∧ c.2 = d.position
        ∧ lengthOfMatchAt g fragment exactMatchOnly c.2 = d.length)
    ∧ (∀ c ∈ m.potentialMatches fragment exactMatchOnly, ∀ g, m.m_genomes[c.1]? = some g →
        g.name = d.genomeName →
        minimumLength ≤ (lengthOfMatchAt g fragment exactMatchOnly c.2 : Int) →
        lengthOfMatchAt g fragment exactMatchOnly c.2 ≤ d.length
        ∧ (lengthOfMatchAt g fragment exactMatchOnly c.2 = d.length → d.position ≤ c.2)) := by
  have hmem := (m.mem_result fragment minimumLength exactMatchOnly matches0 hok d).1 hd
  rcases (m.matchesMap_inv fragment minimumLength exactMatchOnly).best _ hmem with
    ⟨⟨c, hc, hpos, g, hg, hname, hlen, _⟩, hall⟩
  refine ⟨⟨c, hc, g, hg, hname, hpos, hlen⟩, ?_⟩
  intro c1 hc1 g1 hg1 hname1 hmin
  exact hall c1 hc1 _ ⟨g1, hg1, hname1, rfl, hmin⟩

/-- C6 at work: two genomes called `"G1"`; the fragment `"ACGTA"` matches the first at
offsets 0 (length 5) and 4 (length 4) and the second at offset 2 (length 4). -/
theorem C6_longest_then_earliest_witness :
    (∃ c ∈ sampleMatcher2.potentialMatches "ACGTA".toList true,
        ∃ g, sampleMatcher2.m_genomes[c.1]? = some g
        ∧ g.name = (DNAMatch.mk "G1".toList 5 0).genomeName
        ∧ c.2 = (DNAMatch.mk "G1".toList 5 0).position
        ∧ lengthOfMatchAt g "ACGTA".toList true c.2 = (DNAMatch.mk "G1".toList 5 0).length)
    ∧ (∀ c ∈ sampleMatcher2.potentialMatches "ACGTA".toList true,
        ∀ g, sampleMatcher2.m_genomes[c.1]? = some g →
        g.name = (DNAMatch.mk "G1".toList 5 0).genomeName →
        (4 : Int) ≤ (lengthOfMatchAt g "ACGTA".toList true c.2 : Int) →
        lengthOfMatchAt g "ACGTA".toList true c.2 ≤ (DNAMatch.mk "G1".toList 5 0).length
        ∧ (lengthOfMatchAt g "ACGTA".toList true c.2 = (DNAMatch.mk "G1".toList 5 0).length →
            (DNAMatch.mk "G1".toList 5 0).position ≤ c.2)) :=
  C6_longest_then_earliest sampleMatcher2 "ACGTA".toList 4 true [] ⟨"G1".toList, 5, 0⟩
    (by decide) (by decide)

/-- C7: for a matcher with seed length at least 1, every `DNAMatch (name, L, p)` of a
successful `findGenomesWithThisDNA` lies in an indexed genome called `name`:
`p + L` does not pass its end, the first `L` symbols of the fragment differ from its
symbols at `p .. p+L-1` in at most one position (in none when `exactMatchOnly`), and `L`
is maximal: `L` is the length of the fragment, or `p + L` is the length of the genome, or
one more symbol would pass the mismatch budget. -/
theorem C7_match_within_budget_and_maximal (m : GenomeMatcherImpl)
    (hk : 1 ≤ m.m_minSearchLength) (fragment : List Char)
    (minimumLength : Int) (exactMatchOnly : Bool) (matches0 : List DNAMatch) (d : DNAMatch)
    (hok : (m.findGenomesWithThisDNA fragment minimumLength exactMatchOnly matches0).1 = true)
    (hd : d ∈ (m.findGenomesWithThisDNA fragment minimumLength exactMatchOnly matches0).2) :
    ∃ g ∈ m.m_genomes, g.name = d.genomeName
      ∧ d.position + d.length ≤ g.m_sequence.length
      ∧ mismatches (fragment.take d.length) (substr g.m_sequence d.position d.length)
          ≤ budget exactMatchOnly
      ∧ (d.length = fragment.length
          ∨ d.position + d.length = g.m_sequence.length
          ∨ budget exactMatchOnly
              < mismatches (fragment.take (d.length + 1))
                  (substr g.m_sequence d.position (d.length + 1))) := by
  have hmem := (m.mem_result fragment minimumLength exactMatchOnly matches0 hok d).1 hd
  rcases (m.matchesMap_inv fragment minimumLength exactMatchOnly).best _ hmem with
    ⟨⟨c, _, hpos, g, hg, hname, hlen, hmin⟩, _⟩
  rcases (m.success_iff fragment minimumLength exactMatchOnly matches0).1 hok with ⟨hguard, _⟩
  simp only at hpos hlen hmin
  have hL1 : 1 ≤ d.length := by
    have : ¬ minimumLength < m.m_minSearchLength := fun h => hguard (Or.inr h)
    omega
  rw [lengthOfMatchAt_eq, hpos] at hlen
  have hleft := ext_le_left (budget exactMatchOnly) (g.m_sequence.drop d.position) fragment
  have hmis := ext_mismatches (budget exactMatchOnly) (g.m_sequence.drop d.position) fragment
  have hmax := ext_maximal (budget exactMatchOnly) (g.m_sequence.drop d.position) fragment
  rw [hlen] at hleft hmis hmax
  rw [List.length_drop] at hleft hmax
  refine ⟨g, List.getElem?_mem hg, hname, by omega, hmis, ?_⟩
  rcases hmax with h | h | h
  · exact Or.inl h
  · exact Or.inr (Or.inl (by omega))
  · exact Or.inr (Or.inr h)

/-- C7 at work: `"ACGTT"` against `"ACGTACGT"`, tolerant, minimum length 4; the match has
length 5 with its one mismatch in the last position. -/
theorem C7_match_within_budget_and_maximal_witness :
    ∃ g ∈ sampleMatcher.m_genomes, g.name = (DNAMatch.mk "G1".toList 5 0).genomeName
      ∧ (DNAMatch.mk "G1".toList 5 0).position + (DNAMatch.mk "G1".toList 5 0).length
          ≤ g.m_sequence.length
      ∧ mismatches ("ACGTT".toList.take (DNAMatch.mk "G1".toList 5 0).length)
          (substr g.m_sequence (DNAMatch.mk "G1".toList 5 0).position
            (DNAMatch.mk "G1".toList 5 0).length)
          ≤ budget false
      ∧ ((DNAMatch.mk "G1".toList 5 0).length = "ACGTT".toList.length
          ∨ (DNAMatch.mk "G1".toList 5 0).position + (DNAMatch.mk "G1".toList 5 0).length
              = g.m_sequence.length
          ∨ budget false
              < mismatches ("ACGTT".toList.take ((DNAMatch.mk "G1".toList 5 0).length + 1))
                  (substr g.m_sequence (DNAMatch.mk "G1".toList 5 0).position
                    ((DNAMatch.mk "G1".toList 5 0).length + 1))) :=
  C7_match_within_budget_and_maximal sampleMatcher (by decide) "ACGTT".toList 4 false []
    ⟨"G1".toList, 5, 0⟩ (by decide) (by decide)

/-- C8: the list a successful `findGenomesWithThisDNA` returns holds no two entries
with one genome name, whatever the matcher holds. -/
theorem C8_one_match_per_name (m : GenomeMatcherImpl) (fragment : List Char)
    (minimumLength : Int) (exactMatchOnly : Bool) (matches0 : List DNAMatch)
    (hok : (m.findGenomesWithThisDNA fragment minimumLength exactMatchOnly matches0).1 = true) :
    ((m.findGenomesWithThisDNA fragment minimumLength exactMatchOnly matches0).2.map
      DNAMatch.genomeName).Nodup := by
  rw [m.result_of_success fragment minimumLength exactMatchOnly matches0 hok, List.map_map]
  exact (m.matchesMap_inv fragment minimumLength exactMatchOnly).nodup

/-- C8 at work: two indexed genomes share the name `"G1"` and both match. -/
theorem C8_one_match_per_name_witness :
    ((sampleMatcher2.findGenomesWithThisDNA "ACGTA".toList 4 false []).2.map
      DNAMatch.genomeName).Nodup :=
  C8_one_match_per_name sampleMatcher2 "ACGTA".toList 4 false [] (by decide)

/-- C9: every `DNAMatch` of a successful `findGenomesWithThisDNA` has a length of at
least `minimumLength` and at most the length of the fragment. -/
theorem C9_length_bounds (m : GenomeMatcherImpl) (fragment : List Char)
    (minimumLength : Int) (exactMatchOnly : Bool) (matches0 : List DNAMatch) (d : DNAMatch)
    (hok : (m.findGenomesWithThisDNA fragment minimumLength exactMatchOnly matches0).1 = true)
    (hd : d ∈ (m.findGenomesWithThisDNA fragment minimumLength exactMatchOnly matches0).2) :
    minimumLength ≤ (d.length : Int) ∧ d.length ≤ fragment.length := by
  have hmem := (m.mem_result fragment minimumLength exactMatchOnly matches0 hok d).1 hd
  rcases (m.matchesMap_inv fragment minimumLength exactMatchOnly).best _ hmem with
    ⟨⟨c, _, _, g, _, _, hlen, hmin⟩, _⟩
  refine ⟨hmin, ?_⟩
  simp only at hlen
  rw [← hlen, lengthOfMatchAt_eq]
  exact ext_le_right _ _ _

/-- C9 at work: the fragment `"ACGTT"` reaches length 5 in `"ACGTACGT"` with one
mismatch. -/
theorem C9_length_bounds_witness :
    (3 : Int) ≤ ((DNAMatch.mk "G1".toList 5 0).length : Int)
    ∧ (DNAMatch.mk "G1".toList 5 0).length ≤ "ACGTT".toList.length :=
  C9_length_bounds (GenomeMatcherImpl.build 2 [sampleGenome]) "ACGTT".toList 3 false []
    ⟨"G1".toList, 5, 0⟩ (by decide) (by decide)

/-- C10, as stated, fails: a call that fails the check `fragment.length() <
minimumLength` reports failure and leaves in the caller's list what it held before. -/
theorem C10_counterexample :
    sampleMatcher.findGenomesWithThisDNA "AC".toList 4 true [⟨"G9".toList, 7, 3⟩]
      = (false, [⟨"G9".toList, 7, 3⟩]) := by
  decide

/-- C10, amended: for a matcher with seed length at least 1, a call that reports failure
because no potential match qualifies leaves the result list empty, whatever it held
before; a call that reports failure because `minimumLength` is below the seed length or
the fragment is shorter than `minimumLength` leaves the list as the caller passed it. -/
theorem C10_failure_result (m : GenomeMatcherImpl) (hk : 1 ≤ m.m_minSearchLength)
    (fragment : List Char) (minimumLength : Int) (exactMatchOnly : Bool)
    (matches0 : List DNAMatch)
    (hfail : (m.findGenomesWithThisDNA fragment minimumLength exactMatchOnly matches0).1
      = false) :
    (m.m_minSearchLength ≤ minimumLength → minimumLength ≤ (fragment.length : Int) →
      (m.findGenomesWithThisDNA fragment minimumLength exactMatchOnly matches0).2 = [])
    ∧ (minimumLength < m.m_minSearchLength ∨ (fragment.length : Int) < minimumLength →
      (m.findGenomesWithThisDNA fragment minimumLength exactMatchOnly matches0).2
        = matches0) := by
  rw [GenomeMatcherImpl.findGenomesWithThisDNA_eq] at hfail ⊢
  constructor
  · intro h1 h2
    have hg : ¬ (fragment.length < toSizeT minimumLength
        ∨ minimumLength < m.m_minSearchLength) := by
      rw [toSizeT_of_nonneg (by omega)]; omega
    rw [if_neg hg] at hfail ⊢
    by_cases he : m.matchesMap fragment minimumLength exactMatchOnly = []
    · rw [if_pos he]
    · rw [if_neg he] at hfail
      simp at hfail
  · intro h
    have hg : fragment.length < toSizeT minimumLength
        ∨ minimumLength < m.m_minSearchLength := by
      by_cases h1 : minimumLength < m.m_minSearchLength
      · exact Or.inr h1
      · left
        rw [toSizeT_of_nonneg (by omega)]; omega
    rw [if_pos hg]

/-- C10, amended, at work: the fragment `"TTTT"` passes both checks and matches
nothing; the list comes back empty. -/
theorem C10_failure_result_witness :
    ((4 : Int) ≤ 4 → (4 : Int) ≤ ("TTTT".toList.length : Int) →
      (sampleMatcher.findGenomesWithThisDNA "TTTT".toList 4 true
        [⟨"G9".toList, 7, 3⟩]).2 = [])
    ∧ ((4 : Int) < 4 ∨ ("TTTT".toList.length : Int) < 4 →
      (sampleMatcher.findGenomesWithThisDNA "TTTT".toList 4 true
        [⟨"G9".toList, 7, 3⟩]).2 = [⟨"G9".toList, 7, 3⟩]) :=
  C10_failure_result sampleMatcher (by decide) "TTTT".toList 4 true [⟨"G9".toList, 7, 3⟩]
    (by decide)

/-! ## Claims on the two modes -/

/-- C19: on a trie built by inserts, every value the tolerant `find` of a non-empty key
returns was inserted under a key that starts with the first symbol of that key; if no
inserted key starts with it, the tolerant lookup returns the empty list. -/
theorem C19_tolerant_find_keeps_first_symbol {V : Type} (ops : List (List Char × V))
    (base : Char) (r : List Char) :
    (∀ v ∈ (Trie.build ops).find (base :: r) false,
        ∃ k', (k', v) ∈ ops ∧ k'.head? = some base)
    ∧ ((∀ op ∈ ops, op.1.head? ≠ some base) →
        (Trie.build ops).find (base :: r) false = []) := by
  have hsound : ∀ v ∈ (Trie.build ops).find (base :: r) false,
      ∃ k', (k', v) ∈ ops ∧ k'.head? = some base := by
    intro v hv
    rcases (Trie.mem_find_cons _ (Trie.build_distinct ops) base r false v).1 hv with
      ⟨r', _, _, hin⟩
    rw [Trie.build_content] at hin
    rcases List.mem_map.1 hin with ⟨op, hop, hv2⟩
    rcases List.mem_filter.1 hop with ⟨hmem, hk⟩
    have hk' : op.1 = base :: r' := by simpa using hk
    refine ⟨op.1, ?_, by rw [hk']; rfl⟩
    have : op = (op.1, v) := by rw [← hv2]
    rw [← this]; exact hmem
  refine ⟨hsound, ?_⟩
  intro hnone
  apply List.eq_nil_iff_forall_not_mem.2
  intro v hv
  rcases hsound v hv with ⟨k', hin, hhead⟩
  exact hnone (k', v) hin hhead

/-- C19 at work: only `"AC"` is inserted; the tolerant lookup of `"TC"` is empty, that
of `"AG"` returns the value of `"AC"`. -/
theorem C19_tolerant_find_keeps_first_symbol_witness :
    (∀ v ∈ (Trie.build [("AC".toList, 1)]).find "AG".toList false,
        ∃ k', (k', v) ∈ [("AC".toList, 1)] ∧ k'.head? = some 'A')
    ∧ (Trie.build [("AC".toList, 1)]).find "TC".toList false = [] :=
  ⟨(C19_tolerant_find_keeps_first_symbol [("AC".toList, 1)] 'A' "G".toList).1,
    (C19_tolerant_find_keeps_first_symbol [("AC".toList, 1)] 'T' "C".toList).2
      (by decide)⟩

/-- C20: tolerance is monotone. For every matcher, fragment and minimum length, if the
exact `findGenomesWithThisDNA` succeeds and returns a `DNAMatch (name, L, p)`, the
tolerant call succeeds too and returns a `DNAMatch` of that name with a length of at
least `L`; and for every key the list `Trie::find(key, true)` returns is a sub-list of
the one `Trie::find(key, false)` returns. -/
theorem C20_tolerance_monotone (m : GenomeMatcherImpl) (fragment : List Char)
    (minimumLength : Int) (matches0 : List DNAMatch) (d : DNAMatch)
    (hok : (m.findGenomesWithThisDNA fragment minimumLength true matches0).1 = true)
    (hd : d ∈ (m.findGenomesWithThisDNA fragment minimumLength true matches0).2) :
    (m.findGenomesWithThisDNA fragment minimumLength false matches0).1 = true
    ∧ (∃ d1 ∈ (m.findGenomesWithThisDNA fragment minimumLength false matches0).2,
        d1.genomeName = d.genomeName ∧ d.length ≤ d1.length)
    ∧ (∀ key : List Char,
        (m.m_sequences.find key true).Sublist (m.m_sequences.find key false)) := by
  have hmem := (m.mem_result fragment minimumLength true matches0 hok d).1 hd
  rcases (m.matchesMap_inv fragment minimumLength true).best _ hmem with
    ⟨⟨c, hc, _, g, hg, hname, hlen, hmin⟩, _⟩
  simp only at hname hlen hmin
  have hcT : c ∈ m.potentialMatches fragment false := by
    unfold GenomeMatcherImpl.potentialMatches at hc ⊢
    exact (Trie.find_exact_sublist _ _).subset hc
  have hle := lengthOfMatchAt_exact_le g fragment c.2
  have hq : Qualifies m fragment minimumLength false c d.genomeName
      (lengthOfMatchAt g fragment false c.2) := ⟨g, hg, hname, rfl, by omega⟩
  have hinvT := m.matchesMap_inv fragment minimumLength false
  rcases hinvT.covered c hcT _ _ hq with ⟨e, he, hen⟩
  have hbest := ((hinvT.best e he).2 c hcT _ (by rw [hen]; exact hq)).1
  rcases (m.success_iff fragment minimumLength true matches0).1 hok with ⟨hguard, _⟩
  have hokT : (m.findGenomesWithThisDNA fragment minimumLength false matches0).1 = true := by
    rw [GenomeMatcherImpl.success_iff]
    refine ⟨hguard, ?_⟩
    intro hnil
    rw [hnil] at he
    simp at he
  refine ⟨hokT, ⟨⟨e.1, e.2.1, e.2.2⟩, ?_, hen, by simp only; omega⟩, ?_⟩
  · rw [m.mem_result fragment minimumLength false matches0 hokT]
    exact he
  · intro key
    exact Trie.find_exact_sublist _ _

/-- C20 at work: `"ACGTT"` with minimum length 4 against `"ACGTACGT"`: length 4 in exact
mode, length 5 in tolerant mode. -/
theorem C20_tolerance_monotone_witness :
    (sampleMatcher.findGenomesWithThisDNA "ACGTT".toList 4 false []).1 = true
    ∧ (∃ d1 ∈ (sampleMatcher.findGenomesWithThisDNA "ACGTT".toList 4 false []).2,
        d1.genomeName = (DNAMatch.mk "G1".toList 4 0).genomeName
        ∧ (DNAMatch.mk "G1".toList 4 0).length ≤ d1.length)
    ∧ (∀ key : List Char,
        (sampleMatcher.m_sequences.find key true).Sublist
          (sampleMatcher.m_sequences.find key false)) :=
  C20_tolerance_monotone sampleMatcher "ACGTT".toList 4 [] ⟨"G1".toList, 4, 0⟩
    (by decide) (by decide)

/-! ## Claims on the genome record -/

/-- C14: for a genome with sequence `s` and integers `position >= 0`, `length >= 0`,
`extract(position, length)` succeeds if and only if `position + length <= length(s)`; on
success the fragment is the symbols of `s` at offsets `position .. position+length-1`; on
failure the caller's fragment is as it was. -/
theorem C14_extract_contract (g : Genome) (position length : Int) (fragment : List Char)
    (hp : 0 ≤ position) (hl : 0 ≤ length) :
    ((g.extract position length fragment).1 = true ↔ position + length ≤ g.length)
    ∧ ((g.extract position length fragment).1 = true →
        (g.extract position length fragment).2.length = length.toNat
        ∧ ∀ i : Nat, i < length.toNat →
            (g.extract position length fragment).2[i]? = g.m_sequence[position.toNat + i]?)
    ∧ ((g.extract position length fragment).1 = false →
        (g.extract position length fragment).2 = fragment) := by
  obtain ⟨n, rfl⟩ := Int.eq_ofNat_of_zero_le hp
  have hn : ((n : Nat) : Int).toNat = n := by omega
  rw [hn]
  by_cases h : (n : Int) + length ≤ g.length
  · rw [Genome.extract_ok g n length fragment hl h]
    refine ⟨by simp [h], ?_, by simp⟩
    intro _
    unfold Genome.length at h
    constructor
    · simp only [substr, List.length_take, List.length_drop]
      omega
    · intro i hi
      simp only [substr]
      rw [List.getElem?_take_of_lt hi, List.getElem?_drop]
  · rw [Genome.extract_fail g n length fragment hl (by omega)]
    refine ⟨by simp [h], by simp, by simp⟩

/-- C14 at work: offsets 2 to 4 of `"ACGTACGT"`. -/
theorem C14_extract_contract_witness :
    ((sampleGenome.extract 2 3 "old".toList).1 = true ↔ (2 : Int) + 3 ≤ sampleGenome.length)
    ∧ ((sampleGenome.extract 2 3 "old".toList).1 = true →
        (sampleGenome.extract 2 3 "old".toList).2.length = (3 : Int).toNat
        ∧ ∀ i : Nat, i < (3 : Int).toNat →
            (sampleGenome.extract 2 3 "old".toList).2[i]?
              = sampleGenome.m_sequence[(2 : Int).toNat + i]?)
    ∧ ((sampleGenome.extract 2 3 "old".toList).1 = false →
        (sampleGenome.extract 2 3 "old".toList).2 = "old".toList) :=
  C14_extract_contract sampleGenome 2 3 "old".toList (by decide) (by decide)

/-- C17, as stated, fails: the record constructed from `"acgt"` holds `"acgt"`, which is
not its upper-cased form `"ACGT"`. -/
theorem C17_counterexample :
    (Genome.new "G1".toList "acgt".toList).extract 0
        (Genome.new "G1".toList "acgt".toList).length [] = (true, "acgt".toList)
    ∧ upperCased "acgt".toList = "ACGT".toList
    ∧ "acgt".toList ≠ upperCased "acgt".toList := by
  decide

/-- C17, amended: the record the constructor builds from a name and a sequence holds
the sequence as it was given: its length is the length of the given sequence and
extracting its full range yields the given sequence, symbol for symbol. -/
theorem C17_constructor_stores_sequence (nm sequence fragment : List Char) :
    (Genome.new nm sequence).name = nm
    ∧ (Genome.new nm sequence).length = (sequence.length : Int)
    ∧ (Genome.new nm sequence).extract 0 (Genome.new nm sequence).length fragment
        = (true, sequence) := by
  refine ⟨rfl, rfl, ?_⟩
  have := Genome.extract_ok (Genome.new nm sequence) 0 (Genome.new nm sequence).length
    fragment (by unfold Genome.length; omega) (by simp)
  simp only [Nat.cast_zero] at this
  rw [this]
  simp [substr, Genome.new, Genome.length]

/-! ## Claims on the scenarios and on genome similarity -/

/-- C15: with seed length 4 and `"G1" = "ACGTACGT"` indexed,
`findGenomesWithThisDNA("ACGA", 4, false)` succeeds and returns the one `DNAMatch`
`{"G1", length 4, position 0}`; with `exactMatchOnly = true` the call reports failure. -/
theorem C15_scenario_one_mismatch :
    sampleMatcher.findGenomesWithThisDNA "ACGA".toList 4 false []
      = (true, [⟨"G1".toList, 4, 0⟩])
    ∧ (sampleMatcher.findGenomesWithThisDNA "ACGA".toList 4 true []).1 = false := by
  decide

/-- C16: with seed length 2 and `"G1" = "AAAA"`, `"G2" = "AAAT"` indexed in that order,
`findRelatedGenomes` for a query genome with sequence `"AAAA"`, `fragmentMatchLength` 2,
`exactMatchOnly = false` and threshold 0 succeeds and returns the list
`[("G1", 100), ("G2", 100)]`, whatever the query is called and whatever the caller's
list held. -/
theorem C16_scenario_two_genomes (nm : List Char) (results0 : List GenomeMatch) :
    sampleMatcherG1G2.findRelatedGenomes ⟨nm, "AAAA".toList⟩ 2 false 0 results0
      = some (true, [⟨"G1".toList, 100⟩, ⟨"G2".toList, 100⟩]) := by
  have hmap : sampleMatcherG1G2.potentialMatchesMap ⟨nm, "AAAA".toList⟩ 2 false
      = [("G1".toList, 2), ("G2".toList, 2)] := by
    have hq : sampleMatcherG1G2.potentialMatchesMap ⟨nm, "AAAA".toList⟩ 2 false
        = sampleMatcherG1G2.potentialMatchesMap ⟨[], "AAAA".toList⟩ 2 false := rfl
    rw [hq]
    decide
  have hn : numSequencesConsidered ⟨nm, "AAAA".toList⟩ 2 = 2 := by
    have hq : numSequencesConsidered ⟨nm, "AAAA".toList⟩ 2
        = numSequencesConsidered ⟨[], "AAAA".toList⟩ 2 := rfl
    rw [hq]
    decide
  unfold GenomeMatcherImpl.findRelatedGenomes
  rw [if_neg (by decide), if_neg (by decide), hmap, hn]
  norm_num [thresholdLoop, percentOf, truncToInt, sortMatches, tieLoop, pairGreater]
  decide

/-- C11, the code at the failing input: seed length 2, `"G1" = "AC"` indexed, query
`"ACGGTT"`, windows of length 2, exact mode, threshold 0. One window of three reports
`"G1"`, and the call returns `("G1", 33)`, not `100/3`: the percentage lost its fraction
on its way through the `vector<pair<int, string>>`. -/
theorem C11_percentage_is_truncated :
    sampleMatcherAC.findRelatedGenomes sampleQuery3 2 true 0 []
      = some (true, [⟨"G1".toList, 33⟩])
    ∧ hits sampleMatcherAC sampleQuery3 2 true "G1".toList = 1
    ∧ numSequencesConsidered sampleQuery3 2 = 3
    ∧ (33 : ℚ) ≠ 100 * 1 / 3 := by
  have hmap : sampleMatcherAC.potentialMatchesMap sampleQuery3 2 true
      = [("G1".toList, 1)] := by
    decide
  have hn : numSequencesConsidered sampleQuery3 2 = 3 := by decide
  refine ⟨?_, by decide, hn, by norm_num⟩
  unfold GenomeMatcherImpl.findRelatedGenomes
  rw [if_neg (by decide), if_neg (by decide), hmap, hn]
  norm_num [thresholdLoop, percentOf, truncToInt, sortMatches, tieLoop, Int.floor_eq_iff]

/-- C12, the code at the failing input: the call of C11 with threshold 33. The
percentage `100/3` passes the test `p > 33`, and the call returns `("G1", 33)`, whose
`percentMatch` is not above the threshold. -/
theorem C12_result_not_above_threshold :
    sampleMatcherAC.findRelatedGenomes sampleQuery3 2 true 33 []
      = some (true, [⟨"G1".toList, 33⟩])
    ∧ ¬ ((33 : ℚ) < (GenomeMatch.mk "G1".toList 33).percentMatch) := by
  have hmap : sampleMatcherAC.potentialMatchesMap sampleQuery3 2 true
      = [("G1".toList, 1)] := by
    decide
  have hn : numSequencesConsidered sampleQuery3 2 = 3 := by decide
  refine ⟨?_, by norm_num⟩
  unfold GenomeMatcherImpl.findRelatedGenomes
  rw [if_neg (by decide), if_neg (by decide), hmap, hn]
  norm_num [thresholdLoop, percentOf, truncToInt, sortMatches, tieLoop, Int.floor_eq_iff]

/-- C13, the code at the failing input: seed length 2, genomes `"A"`, `"B"`, `"C"`
indexed, each `"AC"`; query `"AC"`, windows of length 2, exact mode, threshold 0. All
three reach 100, and the call returns them in the order `"B"`, `"C"`, `"A"`: the last
loop puts two neighbours in order and never looks at a third. -/
theorem C13_three_way_tie_order :
    sampleMatcherABC.findRelatedGenomes ⟨"Q".toList, "AC".toList⟩ 2 true 0 []
      = some (true, [⟨"B".toList, 100⟩, ⟨"C".toList, 100⟩, ⟨"A".toList, 100⟩])
    ∧ ¬ ("C".toList < "A".toList) := by
  have hmap : sampleMatcherABC.potentialMatchesMap ⟨"Q".toList, "AC".toList⟩ 2 true
      = [("A".toList, 1), ("B".toList, 1), ("C".toList, 1)] := by
    decide
  have hn : numSequencesConsidered ⟨"Q".toList, "AC".toList⟩ 2 = 1 := by decide
  refine ⟨?_, by decide⟩
  unfold GenomeMatcherImpl.findRelatedGenomes
  rw [if_neg (by decide), if_neg (by decide), hmap, hn]
  norm_num [thresholdLoop, percentOf, truncToInt, sortMatches, tieLoop, pairGreater]
  decide

/-- C18: for a matcher with seed length `k >= 1`, a `fragmentMatchLength >= k`, any
threshold and either mode, a query genome shorter than `fragmentMatchLength` makes
`findRelatedGenomes` report failure without a division by zero and with the caller's
result list as it was. -/
theorem C18_no_window_fails_cleanly (m : GenomeMatcherImpl) (hk : 1 ≤ m.m_minSearchLength)
    (query : Genome) (fragmentMatchLength : Int)
    (hfml : m.m_minSearchLength ≤ fragmentMatchLength)
    (hshort : query.length < fragmentMatchLength) (exactMatchOnly : Bool)
    (matchPercentThreshold : ℚ) (results0 : List GenomeMatch) :
    numSequencesConsidered query fragmentMatchLength = 0
    ∧ m.findRelatedGenomes query fragmentMatchLength exactMatchOnly matchPercentThreshold
        results0 = some (false, results0) := by
  have hn : numSequencesConsidered query fragmentMatchLength = 0 := by
    unfold numSequencesConsidered
    exact Int.tdiv_eq_zero_of_lt (by unfold Genome.length; omega) hshort
  refine ⟨hn, ?_⟩
  unfold GenomeMatcherImpl.findRelatedGenomes
  rw [if_neg (by omega), if_neg (by omega)]
  have hmap : m.potentialMatchesMap query fragmentMatchLength exactMatchOnly = [] := by
    unfold GenomeMatcherImpl.potentialMatchesMap
    rw [hn]
    rfl
  rw [hmap]
  rfl

/-- C18 at work: the query `"ACG"` against the matcher of the scenarios, windows of
length 4. -/
theorem C18_no_window_fails_cleanly_witness :
    numSequencesConsidered ⟨"Q".toList, "ACG".toList⟩ 4 = 0
    ∧ sampleMatcher.findRelatedGenomes ⟨"Q".toList, "ACG".toList⟩ 4 false 0
        [⟨"G9".toList, 50⟩] = some (false, [⟨"G9".toList, 50⟩]) :=
  C18_no_window_fails_cleanly sampleMatcher (by decide) ⟨"Q".toList, "ACG".toList⟩ 4
    (by decide) (by decide) false 0 [⟨"G9".toList, 50⟩]

end GeeNomics
